import Mathlib

/-!
Verification development for the Transitive Feature Discovery (TFD) engine of
the `autofeat` repository: a shallow embedding of the BFS join-path traversal
(`augmentation/bfs_pipeline.py`, class `BfsAugmentation`) and of the older
variant in `augmentation/trial_error.py`, together with theorems about the
quality gate, the feature-selection cascade, path naming, the join-name
mapping and traversal termination.

Dataframes are modelled as a column-name list plus rows of optional cell
values (`none` = null/NaN).  External collaborators (pandas joins, the
information-theoretic `measure_*` functions from `feature_selection`, which
are not part of the embedded sources) are modelled as oracle functions
supplied as parameters, so every theorem quantifies over their behaviour.
-/

namespace Autofeat

/-- A dataframe row: one optional value per column (`none` models a null/NaN
cell, as produced by an outer join). -/
abbrev Row := List (Option String)

/-- Model of a pandas dataframe: ordered column names and rows aligned with
those columns. -/
structure DataFrame where
  cols : List String
  rows : List Row
deriving DecidableEq

/-- Column extraction `df[c]`: values of column `c` for every row (missing
column yields the empty column; cells past a short row read as null). -/
def DataFrame.col (df : DataFrame) (c : String) : List (Option String) :=
  match df.cols.indexOf? c with
  | some i => df.rows.map (fun r => (r.get? i).join)
  | none => []

/-- Pandas `df[c].count()`: the number of non-null values in column `c`. -/
def DataFrame.countCol (df : DataFrame) (c : String) : Nat :=
  (df.col c).countP (fun v => v.isSome)

/-- Pandas `df.shape[0]`: the number of rows. -/
def DataFrame.nrows (df : DataFrame) : Nat := df.rows.length

/-- The `join_prop` dictionary of one edge property returned by
`get_relation_properties_node_name`. -/
structure JoinProp where
  from_label : String
  from_column : String
  to_column : String
  weight : ℚ
deriving DecidableEq

/-- One element `prop = (join_prop, from_table, to_table)` of the `join_keys`
list iterated over in the traversal. -/
structure RelProp where
  join_prop : JoinProp
  from_table : String
  to_table : String
deriving DecidableEq

/-- The signature content of one join step used for path naming: table labels
plus column names (spec section 4.2, step 4). -/
structure JoinStep where
  from_table : String
  from_column : String
  to_table : String
  to_column : String
deriving DecidableEq

/-- The naming signature of a `RelProp`. -/
def stepOfProp (p : RelProp) : JoinStep :=
  ⟨p.from_table, p.join_prop.from_column, p.to_table, p.join_prop.to_column⟩

/-- Python-dict lookup on an association list (keys are unique when the list
is built with `insertFM`). -/
def lookupFM {β : Type} : List (String × β) → String → Option β
  | [], _ => none
  | (k', v) :: rest, k => if k' = k then some v else lookupFM rest k

/-- Python-dict assignment `m[k] = v`: overwrite in place when the key is
present, append otherwise (insertion-ordered dict semantics). -/
def insertFM {β : Type} : List (String × β) → String → β → List (String × β)
  | [], k, v => [(k, v)]
  | (k', v') :: rest, k, v =>
    if k' = k then (k, v) :: rest else (k', v') :: insertFM rest k v

/-- The keys of an association list. -/
def keysFM {β : Type} (m : List (String × β)) : List String := m.map (·.1)

/-- The character of a single decimal digit. -/
def digitCharOf (d : Nat) : Char := Char.ofNat (48 + d)

/-- Structural (kernel-reducible) little-endian decimal digits, with fuel. -/
def digitsAux10 : Nat → Nat → List Nat
  | _, 0 => []
  | 0, _ => []
  | fuel + 1, n + 1 => (n + 1) % 10 :: digitsAux10 fuel ((n + 1) / 10)

/-- Little-endian decimal digits of a natural number. -/
def decDigits (n : Nat) : List Nat := digitsAux10 n n

/-- Decimal rendering of a natural number, as Python's `str`/f-string
interpolation produces it. -/
def natRepr (n : Nat) : String :=
  if n = 0 then "0" else ⟨((decDigits n).map digitCharOf).reverse⟩

/-- Modelled from the spec: the signature of one join step used by
`compute_partial_join_filename` (in `data_preparation/utils.py`, which is not
among the embedded sources) — "a signature of the join relation (table labels
+ column names)", rendered with separators. -/
def joinSignature (s : JoinStep) : String :=
  "--" ++ s.from_table ++ "-" ++ s.from_column ++ "-" ++ s.to_table ++ "-" ++ s.to_column

/-- Modelled from the spec: `compute_partial_join_filename` (in
`data_preparation/utils.py`, not among the embedded sources) composes the
parent path name with the signature of the join relation (spec section 4.2,
step 4: "the new path name is computed by deterministically composing the
parent path name with a signature of the join relation"). -/
def compute_partial_join_filename (s : JoinStep) (partial_join_name : String) : String :=
  partial_join_name ++ joinSignature s

/-- The path name of a whole join sequence: fold the naming composition over
the steps, starting from the base path name. -/
def pathName (base : String) (steps : List JoinStep) : String :=
  steps.foldl (fun acc s => compute_partial_join_filename s acc) base

/-- The on-disk filename convention of `BfsAugmentation.step_join`:
`join_BFS_` followed by the value ratio, an underscore, the counter, and
`.csv` (the value ratio's rendering is taken as an opaque string). -/
def mkJoinFilename (vrStr : String) (k : Nat) : String :=
  "join_BFS_" ++ vrStr ++ "_" ++ natRepr k ++ ".csv"

/-- Modelled from the spec: drawing one row from a group with a fixed random
seed ("it is deterministic given the seed so repeated runs are
reproducible") — a deterministic selection from the group's rows. -/
def sampleOne (seed : Nat) (rows : List Row) : Option Row :=
  rows.get? (seed % rows.length)

/-- Modelled from the spec: pandas `df.groupby(keyCol).sample(n=1,
random_state=seed)` — "group the right-hand table by its join column and draw
exactly one row per group using a fixed random seed".  Rows with a null key
are dropped (pandas groupby default); groups are enumerated in order of first
occurrence and one row is drawn deterministically per group. -/
def groupbySample (df : DataFrame) (keyCol : String) (seed : Nat) : DataFrame :=
  match df.cols.indexOf? keyCol with
  | none => ⟨df.cols, []⟩
  | some i =>
    let keys := (df.rows.filterMap (fun r => (r.get? i).join)).dedup
    ⟨df.cols,
     keys.filterMap (fun k =>
       sampleOne seed (df.rows.filter (fun r => (r.get? i).join == some k)))⟩

/-- External collaborators of the traversal, supplied as oracle functions:
`prepare_data_for_ml` and `join_and_save` from `data_preparation/utils.py`,
the four `measure_*` filters from
`feature_selection/join_path_feature_selection.py`, `train_test_cart` and
`_select_features_train` (all outside the embedded sources).  Score
dictionaries returned alongside the feature lists are dropped because the
pipeline never reads them; `train_test_cart`'s `Result` object is abstracted
to an opaque token. -/
structure Oracles where
  prepare_data_for_ml : DataFrame → String → DataFrame × List (Option String)
  join_and_save : DataFrame → DataFrame → String → String → String → DataFrame
  measure_relevance : DataFrame → List String → List (Option String) → List String
  measure_conditional_redundancy : DataFrame → List String → List String → List (Option String) → List String
  measure_joint_mutual_information : DataFrame → List String → List String → List (Option String) → List String
  measure_redundancy : DataFrame → List String → List (Option String) → List String
  train_test_cart : DataFrame → String → String
  select_features_train : DataFrame → DataFrame → String → String → List String

/-- `BfsAugmentation.step_data_quality` (bfs_pipeline.py lines 164-172):
reject the join when the ratio of non-null values in the right-hand join
column to the row count is strictly below `value_ratio`. -/
def step_data_quality (value_ratio : ℚ) (prop : RelProp) (joined_df : DataFrame) : Bool :=
  if ((joined_df.countCol (prop.to_table ++ "." ++ prop.join_prop.to_column) : ℚ) /
      (joined_df.nrows : ℚ)) < value_ratio then
    false
  else
    true

/-- `BfsAugmentation.step_join` (bfs_pipeline.py lines 143-162): compute the
join name and counter-derived filename, perform the join (oracle), and return
all three.  `mappingLen` is `len(self.join_name_mapping)` at call time. -/
def step_join (o : Oracles) (vrStr : String) (mappingLen : Nat) (prop : RelProp)
    (partial_join_name : String) (partial_join right_df : DataFrame) :
    DataFrame × String × String :=
  let join_name := compute_partial_join_filename (stepOfProp prop) partial_join_name
  let join_filename := mkJoinFilename vrStr (mappingLen + 1)
  let joined_df := o.join_and_save partial_join right_df
      (prop.from_table ++ "." ++ prop.join_prop.from_column)
      (prop.to_table ++ "." ++ prop.join_prop.to_column) join_filename
  (joined_df, join_name, join_filename)

/-- The combination rule of the cascade (bfs_pipeline.py lines 208-215): when
Stage 2's non-conditionally-redundant set is empty fall back to Stage 3's
joint-relevant set (rejecting if that is empty too); otherwise intersect the
two.  Python sets are modelled as deduplicated lists, so the returned list
has exactly the elements of the corresponding Python set. -/
def combineStages (non_cond_red_feat joint_rel_feat : List String) : Option (List String) :=
  if non_cond_red_feat.isEmpty then
    if joint_rel_feat.isEmpty then none else some joint_rel_feat.dedup
  else
    some (non_cond_red_feat.dedup.filter (fun f => decide (f ∈ joint_rel_feat)))

/-- Stage 4 of the cascade plus the final bookkeeping (bfs_pipeline.py lines
217-229): measure pairwise redundancy over the surviving candidate set,
reject when nothing remains, otherwise append the ancestor's features and
store the result for the new path name.  The first component is the
function's return value, the second the updated
`partial_join_selected_features` mapping. -/
def stage4 (o : Oracles) (X : DataFrame) (y : List (Option String))
    (current_selected_features : List String) (pjsf : List (String × List String))
    (current_join_name : String) :
    Option (List String) → Option (List String) × List (String × List String)
  | none => (none, pjsf)
  | some selected =>
    let non_red_feat := o.measure_redundancy X selected y
    if non_red_feat.isEmpty then (none, pjsf)
    else
      let selected_features := non_red_feat ++ current_selected_features
      (some selected_features, insertFM pjsf current_join_name selected_features)

/-- Lines 179-181 of bfs_pipeline.py: the candidate feature list is the
right table's column list with the target column removed when present
(Python `list.remove` removes the first occurrence). -/
def rightFeaturesOf (target_column : String) (right_df : DataFrame) : List String :=
  if target_column ∈ right_df.cols then right_df.cols.erase target_column
  else right_df.cols

/-- Stage 1 output: the relevant features among the right table's candidate
features (bfs_pipeline.py line 187). -/
def relevantOf (o : Oracles) (target_column : String) (joined_df right_df : DataFrame) :
    List String :=
  o.measure_relevance joined_df (rightFeaturesOf target_column right_df)
    (o.prepare_data_for_ml joined_df target_column).2

/-- Stage 2 output: the non-conditionally-redundant features
(bfs_pipeline.py line 195). -/
def stage2Of (o : Oracles) (target_column : String) (joined_df right_df : DataFrame)
    (current_selected_features : List String) : List String :=
  o.measure_conditional_redundancy (o.prepare_data_for_ml joined_df target_column).1
    current_selected_features (relevantOf o target_column joined_df right_df)
    (o.prepare_data_for_ml joined_df target_column).2

/-- Stage 3 output: the joint-relevant features (bfs_pipeline.py line 203). -/
def stage3Of (o : Oracles) (target_column : String) (joined_df right_df : DataFrame)
    (current_selected_features : List String) : List String :=
  o.measure_joint_mutual_information (o.prepare_data_for_ml joined_df target_column).1
    current_selected_features (relevantOf o target_column joined_df right_df)
    (o.prepare_data_for_ml joined_df target_column).2

/-- `BfsAugmentation.step_feature_selection` (bfs_pipeline.py lines 174-231).
The outer `Option` models the `KeyError` raised when the ancestor path has no
stored feature list; the inner `Option` is the function's `None`-or-list
return value, paired with the updated `partial_join_selected_features`. -/
def step_feature_selection (o : Oracles) (target_column : String)
    (pjsf : List (String × List String)) (joined_df right_df : DataFrame)
    (partial_join_name current_join_name : String) :
    Option (Option (List String) × List (String × List String)) :=
  match lookupFM pjsf partial_join_name with
  | none => none
  | some current_selected_features =>
    let relevant_features := relevantOf o target_column joined_df right_df
    if relevant_features.isEmpty then some (none, pjsf)
    else
      let non_cond_red_feat := stage2Of o target_column joined_df right_df current_selected_features
      let joint_rel_feat := stage3Of o target_column joined_df right_df current_selected_features
      some (stage4 o (o.prepare_data_for_ml joined_df target_column).1
        (o.prepare_data_for_ml joined_df target_column).2 current_selected_features pjsf
        current_join_name (combineStages non_cond_red_feat joint_rel_feat))

/-- Restriction `df[columns]` to a list of columns. -/
def DataFrame.selectCols (df : DataFrame) (cs : List String) : DataFrame :=
  ⟨cs, df.rows.map (fun r =>
    cs.map (fun c =>
      match df.cols.indexOf? c with
      | some i => (r.get? i).join
      | none => none))⟩

/-- `BfsAugmentation.step_rank_path` (bfs_pipeline.py lines 233-237): train
the scoring model on the accepted features plus target and record the result
under the join name. -/
def step_rank_path (o : Oracles) (target_column : String)
    (ranked_paths : List (String × String)) (joined_df : DataFrame)
    (features : List String) (join_name : String) : List (String × String) :=
  let columns := features ++ [target_column]
  insertFM ranked_paths join_name (o.train_test_cart (joined_df.selectCols columns) target_column)

/-- The mutable traversal state owned by a `BfsAugmentation` instance, as far
as the per-relation join pipeline touches it: `self.join_name_mapping`,
the per-neighbour path frontier `current_queue`, `self.ranked_paths` and
`self.partial_join_selected_features`. -/
structure PipeState where
  join_name_mapping : List (String × String)
  current_queue : List String
  ranked_paths : List (String × String)
  partial_join_selected_features : List (String × List String)
deriving DecidableEq

/-- The body of the `for prop in join_keys` loop of
`BfsAugmentation.bfs_traverse_join_pipeline` (bfs_pipeline.py lines 103-133):
filter by direction/weight, sample the right table, join, apply the data
quality gate and the cascade, then rank the path and record the join name.
Returns `none` on an unrecoverable `KeyError`; otherwise the updated state
and whether the join pipeline was executed for this relation (i.e. the
relation survived the line-105 filter). -/
def processProp (o : Oracles) (value_ratio : ℚ) (vrStr : String) (target_column : String)
    (right_df : DataFrame) (right_label : String) (partial_join_name : String)
    (partial_join : DataFrame) (prop : RelProp) (st : PipeState) :
    Option (PipeState × Bool) :=
  if prop.join_prop.from_label ≠ prop.from_table ∧ prop.join_prop.weight < 1 then
    some (st, false)
  else
    let sj := step_join o vrStr st.join_name_mapping.length prop partial_join_name
        partial_join (groupbySample right_df (right_label ++ "." ++ prop.join_prop.to_column) 42)
    let joined_df := sj.1
    let join_name := sj.2.1
    let join_filename := sj.2.2
    if step_data_quality value_ratio prop joined_df = false then some (st, true)
    else
      match step_feature_selection o target_column st.partial_join_selected_features
          joined_df right_df partial_join_name join_name with
      | none => none
      | some (none, pjsf2) =>
        some ({ st with partial_join_selected_features := pjsf2 }, true)
      | some (some feats, pjsf2) =>
        some ({ join_name_mapping := insertFM st.join_name_mapping join_name join_filename,
                current_queue :=
                  if join_name ∈ st.current_queue then st.current_queue
                  else st.current_queue ++ [join_name],
                ranked_paths := step_rank_path o target_column st.ranked_paths joined_df feats join_name,
                partial_join_selected_features := pjsf2 }, true)

/-- The whole `for prop in join_keys` loop: fold `processProp` over the
relation list, collecting the relations for which the join pipeline was
executed. -/
def processProps (o : Oracles) (value_ratio : ℚ) (vrStr : String) (target_column : String)
    (right_df : DataFrame) (right_label : String) (partial_join_name : String)
    (partial_join : DataFrame) : List RelProp → PipeState → Option (PipeState × List RelProp)
  | [], st => some (st, [])
  | p :: ps, st =>
    match processProp o value_ratio vrStr target_column right_df right_label
        partial_join_name partial_join p st with
    | none => none
    | some (st1, ex) =>
      match processProps o value_ratio vrStr target_column right_df right_label
          partial_join_name partial_join ps st1 with
      | none => none
      | some (st2, exs) => some (st2, (if ex then [p] else []) ++ exs)

/-- The joined dataframe computed inside `processProp` for a relation that
survives the direction/weight filter (the first component of its
`step_join` call). -/
def joinedOf (o : Oracles) (vrStr : String) (right_df : DataFrame) (right_label : String)
    (partial_join_name : String) (partial_join : DataFrame) (prop : RelProp)
    (st : PipeState) : DataFrame :=
  (step_join o vrStr st.join_name_mapping.length prop partial_join_name
    partial_join (groupbySample right_df (right_label ++ "." ++ prop.join_prop.to_column) 42)).1

/-- The path name `processProp` computes for a relation. -/
def joinNameOf (partial_join_name : String) (prop : RelProp) : String :=
  compute_partial_join_filename (stepOfProp prop) partial_join_name

/-- The filename invariant of `join_name_mapping`: the entry at position `i`
carries the counter-derived filename for counter value `i + 1`. -/
def mappingInv (vrStr : String) (m : List (String × String)) : Prop :=
  ∀ i kv, m.get? i = some kv → kv.2 = mkJoinFilename vrStr (i + 1)

/-- The success condition of one relation inside `processProp`: the joined
dataframe passes the data-quality gate and the feature-selection cascade
accepts a feature list. -/
def joinAccepted (o : Oracles) (vr : ℚ) (vrStr tc : String) (right_df : DataFrame)
    (rl pjn : String) (pj : DataFrame) (prop : RelProp) (st : PipeState) : Prop :=
  step_data_quality vr prop (joinedOf o vrStr right_df rl pjn pj prop st) = true ∧
  ∃ feats pjsf2, step_feature_selection o tc st.partial_join_selected_features
      (joinedOf o vrStr right_df rl pjn pj prop st) right_df pjn (joinNameOf pjn prop) =
    some (some feats, pjsf2)

/-- A string avoiding the separator character of the path-naming scheme. -/
abbrev SepFreeStr (s : String) : Prop := '-' ∉ s.data

/-- A join step all of whose signature fields avoid the separator. -/
abbrev SepFree (s : JoinStep) : Prop :=
  SepFreeStr s.from_table ∧ SepFreeStr s.from_column ∧ SepFreeStr s.to_table ∧ SepFreeStr s.to_column

/-- The separator-prefixed encoding of a block list, the character-level shape
of a path name's suffix. -/
def encodeParts (l : List String) : List Char :=
  (l.map (fun p => '-' :: p.data)).flatten

/-- The blocks contributed by one join step to its path-name signature. -/
def partsOfStep (s : JoinStep) : List String :=
  ["", s.from_table, s.from_column, s.to_table, s.to_column]

/-- The blocks contributed by a whole join sequence. -/
def partsOfSeq (steps : List JoinStep) : List String :=
  (steps.map partsOfStep).flatten

/-- The mutable state of `trial_error.bfs_traverse_join_pipeline` touched by
its per-relation loop body: `join_name_mapping`, the path frontier
`current_queue`, and the `train_results` list (abstracted to the recorded
join names). -/
structure TrialState where
  join_name_mapping : List (String × String)
  current_queue : List String
  train_results : List String
deriving DecidableEq

/-- The body of the `for prop in join_keys` loop of
`trial_error.bfs_traverse_join_pipeline` (trial_error.py lines 66-104).  Note
that the mapping entry `join_name_mapping[join_name] = join_filename` is
recorded at line 80, before the join and the quality gate, so a gate-rejected
join keeps its mapping entry.  Line 73 reassigns `right_df` to the sampled
table, so the (possibly re-sampled) right table is returned alongside the
state. -/
def trialProcessProp (o : Oracles) (value_ratio : ℚ) (target_column : String)
    (right_label : String) (partial_join_name : String) (partial_join : DataFrame)
    (prop : RelProp) (right_df : DataFrame) (st : TrialState) : TrialState × DataFrame :=
  if prop.join_prop.from_label ≠ prop.from_table then (st, right_df)
  else
    let right_df2 := groupbySample right_df (right_label ++ "." ++ prop.join_prop.to_column) 42
    let join_name := compute_partial_join_filename (stepOfProp prop) partial_join_name
    let join_filename := "join" ++ natRepr (st.join_name_mapping.length + 1) ++ ".csv"
    let mapping2 := insertFM st.join_name_mapping join_name join_filename
    let joined_df := o.join_and_save partial_join right_df2
        (prop.from_table ++ "." ++ prop.join_prop.from_column)
        (prop.to_table ++ "." ++ prop.join_prop.to_column) join_filename
    if ((joined_df.countCol (prop.to_table ++ "." ++ prop.join_prop.to_column) : ℚ) /
        (joined_df.nrows : ℚ)) < value_ratio then
      ({ st with join_name_mapping := mapping2 }, right_df2)
    else
      ({ join_name_mapping := mapping2,
         current_queue :=
           if join_name ∈ st.current_queue then st.current_queue
           else st.current_queue ++ [join_name],
         train_results := st.train_results ++ [join_name] ++
           o.select_features_train joined_df right_df2 target_column join_name }, right_df2)

/-- The joined dataframe computed inside `trialProcessProp` for a relation
that survives the direction filter. -/
def trialJoinedOf (o : Oracles) (right_df : DataFrame) (rl : String)
    (pj : DataFrame) (prop : RelProp) (st : TrialState) : DataFrame :=
  o.join_and_save pj (groupbySample right_df (rl ++ "." ++ prop.join_prop.to_column) 42)
    (prop.from_table ++ "." ++ prop.join_prop.from_column)
    (prop.to_table ++ "." ++ prop.join_prop.to_column)
    ("join" ++ natRepr (st.join_name_mapping.length + 1) ++ ".csv")

/-- The node-level traversal state of
`BfsAugmentation.bfs_traverse_join_pipeline`: the `self.discovered` set, a
log of the nodes actually added to it (in order, recorded only when the
`add` changes the set, mirroring Python set semantics), and a log of the
nodes popped and expanded as base nodes. -/
structure TravState (α : Type) where
  discovered : Finset α
  discoveryLog : List α
  expansions : List α
deriving DecidableEq

variable {α : Type} [DecidableEq α]

/-- `self.discovered.add b` together with the discovery log (an append only
when the element is new, mirroring Python set semantics). -/
def discover (st : TravState α) (b : α) : TravState α :=
  ⟨insert b st.discovered,
   if b ∈ st.discovered then st.discoveryLog else st.discoveryLog ++ [b],
   st.expansions⟩

/-- The `for node in neighbours` discovery sweep (bfs_pipeline.py lines
72-75): add every neighbour to the discovered set. -/
def discoverAll (st : TravState α) (ns : List α) : TravState α := ns.foldl discover st

/-- Popping a base node (bfs_pipeline.py lines 61-62): add it to the
discovered set and record the expansion. -/
def stepState (st : TravState α) (b : α) : TravState α :=
  ⟨insert b st.discovered,
   if b ∈ st.discovered then st.discoveryLog else st.discoveryLog ++ [b],
   st.expansions ++ [b]⟩

/-- The unvisited neighbours of a base node (bfs_pipeline.py line 67):
`set(get_adjacent_nodes(base)) - set(self.discovered)`, computed after the
base node was added. -/
def nbrsOf (adj : α → List α) (st1 : TravState α) (b : α) : List α :=
  ((adj b).filter (fun n => decide (n ∉ st1.discovered))).dedup

/-- The node-level dynamics of `BfsAugmentation.bfs_traverse_join_pipeline`
(bfs_pipeline.py lines 46-141), with the per-neighbour join pipeline
projected away (it never touches the discovered set or the node queues):
pop a base node, record it as discovered and expanded, compute the
unvisited neighbours, mark them discovered, recurse one level deeper on
them, and continue with the rest of the queue.  `fuel` bounds the recursion
depth; the termination theorem shows results agree for all sufficient fuel. -/
def bfs_traverse (adj : α → List α) : Nat → List α → TravState α → TravState α
  | 0, _, st => st
  | _ + 1, [], st => st
  | fuel + 1, b :: rest, st =>
    if (nbrsOf adj (stepState st b) b).isEmpty then
      bfs_traverse adj fuel rest (stepState st b)
    else
      bfs_traverse adj fuel rest
        (bfs_traverse adj fuel (nbrsOf adj (stepState st b) b)
          (discoverAll (stepState st b) (nbrsOf adj (stepState st b) b)))

/-- A well-formed discovery log: no duplicates, and every logged node is in
the discovered set. -/
def LogInv (st : TravState α) : Prop :=
  st.discoveryLog.Nodup ∧ ∀ n ∈ st.discoveryLog, n ∈ st.discovered

/-- The termination measure of the traversal over a finite node universe
`V`: undiscovered nodes weighted by the universe size, plus the queue
length. -/
def travMeasure (V : Finset α) (st : TravState α) (q : List α) : Nat :=
  (V \ st.discovered).card * (V.card + 1) + q.length

/-- Concrete right-hand table used to instantiate theorems. -/
def dfR : DataFrame := ⟨["R.b"], [[some "1"]]⟩

/-- Concrete joined dataframe used to instantiate theorems (the key column
`R.k` is fully non-null). -/
def dfJ : DataFrame := ⟨["A.x", "y", "R.k", "R.b"], [[some "1", some "0", some "2", some "3"]]⟩

/-- Concrete joined dataframe whose key column `T.k` is mostly null (one
non-null value out of four rows). -/
def dfLow : DataFrame := ⟨["A.k", "y", "T.k"], [[some "1", some "0", some "1"], [some "2", some "0", none], [some "3", some "1", none], [some "4", some "1", none]]⟩

/-- Concrete base table used to instantiate theorems. -/
def dfA : DataFrame := ⟨["A.k", "y"], [[some "1", some "0"]]⟩

/-- Concrete neighbour table with key column `T.k`. -/
def dfT : DataFrame := ⟨["T.k"], [[some "1"]]⟩

/-- Oracle instance whose measure filters keep every candidate and whose join
yields `dfJ`. -/
def oW : Oracles :=
  ⟨fun df _ => (df, []), fun _ _ _ _ _ => dfJ, fun _ l _ => l, fun _ _ l _ => l,
   fun _ _ l _ => l, fun _ l _ => l, fun _ _ => "cart", fun _ _ _ _ => []⟩

/-- Oracle instance whose Stage 2 filter rejects everything (empty
non-conditionally-redundant set) while the other stages keep everything. -/
def oW2 : Oracles :=
  ⟨fun df _ => (df, []), fun _ _ _ _ _ => dfJ, fun _ l _ => l, fun _ _ _ _ => [],
   fun _ _ l _ => l, fun _ l _ => l, fun _ _ => "cart", fun _ _ _ _ => []⟩

/-- Oracle instance whose Stage 1 relevance filter rejects every candidate. -/
def oW3 : Oracles :=
  ⟨fun df _ => (df, []), fun _ _ _ _ _ => dfJ, fun _ _ _ => [], fun _ _ l _ => l,
   fun _ _ l _ => l, fun _ l _ => l, fun _ _ => "cart", fun _ _ _ _ => []⟩

/-- Oracle instance whose join yields the mostly-null `dfLow`. -/
def oLow : Oracles :=
  ⟨fun df _ => (df, []), fun _ _ _ _ _ => dfLow, fun _ l _ => l, fun _ _ l _ => l,
   fun _ _ l _ => l, fun _ l _ => l, fun _ _ => "cart", fun _ _ _ _ => []⟩

/-- Concrete relation whose direction matches (`from_label = from_table`). -/
def propW : RelProp := ⟨⟨"A", "k", "k", 1⟩, "A", "R"⟩

/-- Concrete relation towards table `T`, direction matching. -/
def propT : RelProp := ⟨⟨"A", "k", "k", 1⟩, "A", "T"⟩

/-- Concrete relation with mismatched direction and weight below one, which
line 105 of bfs_pipeline.py skips. -/
def propF : RelProp := ⟨⟨"X", "k", "k", 0⟩, "A", "T"⟩

/-- Concrete relation with mismatched direction but weight one: line 105 of
bfs_pipeline.py keeps it, but line 68 of trial_error.py skips it. -/
def propD : RelProp := ⟨⟨"X", "k", "k", 1⟩, "A", "T"⟩

/-- Concrete cyclic adjacency used to instantiate the traversal theorems:
nodes 0 and 1 point at each other (a cycle) and 1 also points at 2. -/
def adjW : ℕ → List ℕ := fun a =>
  if a = 0 then [1] else if a = 1 then [0, 2] else if a = 2 then [1] else []

/-- The node universe of `adjW`. -/
def VW : Finset ℕ := {0, 1, 2}

/-!  ## Theorems  -/

theorem digitsAux10_eq (fuel : Nat) :
    ∀ n : Nat, n ≤ fuel → digitsAux10 fuel n = Nat.digits 10 n := by
  induction fuel with
  | zero =>
    intro n hn
    interval_cases n
    simp [digitsAux10]
  | succ fuel ih =>
    intro n hn
    match n with
    | 0 => simp [digitsAux10]
    | m + 1 =>
      rw [digitsAux10, Nat.digits_def' (by norm_num : (1 : ℕ) < 10) (Nat.succ_pos m)]
      rw [ih ((m + 1) / 10) ?_]
      have h1 : (m + 1) / 10 < m + 1 := Nat.div_lt_self (Nat.succ_pos m) (by norm_num)
      omega

theorem decDigits_eq (n : Nat) : decDigits n = Nat.digits 10 n :=
  digitsAux10_eq n n le_rfl

theorem lookupFM_insertFM_self {β : Type} (m : List (String × β)) (k : String) (v : β) :
    lookupFM (insertFM m k v) k = some v := by
  induction m with
  | nil => simp [insertFM, lookupFM]
  | cons kv rest ih =>
    obtain ⟨k', v'⟩ := kv
    by_cases h : k' = k
    · simp [insertFM, h, lookupFM]
    · simp [insertFM, h, lookupFM, ih]

theorem insertFM_eq_append {β : Type} (m : List (String × β)) (k : String) (v : β)
    (h : lookupFM m k = none) : insertFM m k v = m ++ [(k, v)] := by
  induction m with
  | nil => simp [insertFM]
  | cons kv rest ih =>
    obtain ⟨k', v'⟩ := kv
    by_cases hk : k' = k
    · simp [lookupFM, hk] at h
    · simp only [lookupFM, hk, if_false] at h
      simp [insertFM, hk, ih h]

/-- C3: for every join accepted by the cascade, the accepted-feature list
stored for the new path name contains every feature of the ancestor path's
accepted-feature list. -/
theorem c3_monotonic_inheritance
    (o : Oracles) (tc : String) (pjsf : List (String × List String))
    (joined_df right_df : DataFrame) (pjn cjn : String) (cs l : List String)
    (pjsf2 : List (String × List String))
    (hlook : lookupFM pjsf pjn = some cs)
    (h : step_feature_selection o tc pjsf joined_df right_df pjn cjn = some (some l, pjsf2)) :
    (∀ f ∈ cs, f ∈ l) ∧ lookupFM pjsf2 cjn = some l := by
  rw [step_feature_selection, hlook] at h
  by_cases hrel : (relevantOf o tc joined_df right_df).isEmpty
  · simp [hrel] at h
  · simp only [hrel, Bool.false_eq_true, if_false] at h
    rcases hcomb : combineStages (stage2Of o tc joined_df right_df cs)
        (stage3Of o tc joined_df right_df cs) with _ | sel
    · rw [hcomb] at h
      simp [stage4] at h
    · rw [hcomb] at h
      by_cases hred : (o.measure_redundancy (o.prepare_data_for_ml joined_df tc).1 sel
          (o.prepare_data_for_ml joined_df tc).2).isEmpty
      · simp [stage4, hred] at h
      · simp only [stage4, hred, Bool.false_eq_true, if_false, Option.some_inj,
          Prod.mk.injEq] at h
        obtain ⟨hl, hp⟩ := h
        constructor
        · intro f hf
          rw [← hl]
          exact List.mem_append_right _ hf
        · rw [← hp, ← hl]
          exact lookupFM_insertFM_self pjsf cjn _

/-- C3 witness: a concrete accepted join whose stored feature list retains
the ancestor feature `A.x`. -/
theorem c3_witness :
    (lookupFM [("A", ["A.x"])] "A" = some ["A.x"] ∧
     step_feature_selection oW "y" [("A", ["A.x"])] dfJ dfR "A" "A--A-k-R-k" =
       some (some ["R.b", "A.x"], [("A", ["A.x"]), ("A--A-k-R-k", ["R.b", "A.x"])])) ∧
    ((∀ f ∈ ["A.x"], f ∈ ["R.b", "A.x"]) ∧
     lookupFM [("A", ["A.x"]), ("A--A-k-R-k", ["R.b", "A.x"])] "A--A-k-R-k" =
       some ["R.b", "A.x"]) :=
  ⟨⟨by decide, by decide⟩,
   c3_monotonic_inheritance oW "y" [("A", ["A.x"])] dfJ dfR "A" "A--A-k-R-k"
     ["A.x"] ["R.b", "A.x"] [("A", ["A.x"]), ("A--A-k-R-k", ["R.b", "A.x"])]
     (by decide) (by decide)⟩

/-- C2: the cascade's combination rule — both Stage 2 and Stage 3 empty
rejects the join; Stage 2 empty with Stage 3 non-empty passes exactly Stage
3's set to Stage 4; otherwise Stage 4 receives exactly the intersection of
Stage 2's and Stage 3's sets. -/
theorem c2_cascade_combination
    (o : Oracles) (tc : String) (pjsf : List (String × List String))
    (joined_df right_df : DataFrame) (pjn cjn : String) (cs : List String)
    (hlook : lookupFM pjsf pjn = some cs)
    (hrel : relevantOf o tc joined_df right_df ≠ []) :
    (stage2Of o tc joined_df right_df cs = [] → stage3Of o tc joined_df right_df cs = [] →
      combineStages (stage2Of o tc joined_df right_df cs) (stage3Of o tc joined_df right_df cs) =
        none ∧
      step_feature_selection o tc pjsf joined_df right_df pjn cjn = some (none, pjsf)) ∧
    (stage2Of o tc joined_df right_df cs = [] → stage3Of o tc joined_df right_df cs ≠ [] →
      ∃ l, combineStages (stage2Of o tc joined_df right_df cs)
          (stage3Of o tc joined_df right_df cs) = some l ∧
        l.toFinset = (stage3Of o tc joined_df right_df cs).toFinset ∧
        step_feature_selection o tc pjsf joined_df right_df pjn cjn =
          some (stage4 o (o.prepare_data_for_ml joined_df tc).1
            (o.prepare_data_for_ml joined_df tc).2 cs pjsf cjn (some l))) ∧
    (stage2Of o tc joined_df right_df cs ≠ [] →
      ∃ l, combineStages (stage2Of o tc joined_df right_df cs)
          (stage3Of o tc joined_df right_df cs) = some l ∧
        l.toFinset = (stage2Of o tc joined_df right_df cs).toFinset ∩
          (stage3Of o tc joined_df right_df cs).toFinset ∧
        step_feature_selection o tc pjsf joined_df right_df pjn cjn =
          some (stage4 o (o.prepare_data_for_ml joined_df tc).1
            (o.prepare_data_for_ml joined_df tc).2 cs pjsf cjn (some l))) := by
  have hrel' : (relevantOf o tc joined_df right_df).isEmpty = false := by
    simpa [List.isEmpty_iff] using hrel
  have hstep : step_feature_selection o tc pjsf joined_df right_df pjn cjn =
      some (stage4 o (o.prepare_data_for_ml joined_df tc).1
        (o.prepare_data_for_ml joined_df tc).2 cs pjsf cjn
        (combineStages (stage2Of o tc joined_df right_df cs)
          (stage3Of o tc joined_df right_df cs))) := by
    rw [step_feature_selection, hlook]
    simp [hrel']
  refine ⟨fun h2 h3 => ?_, fun h2 h3 => ?_, fun h2 => ?_⟩
  · have hc : combineStages (stage2Of o tc joined_df right_df cs)
        (stage3Of o tc joined_df right_df cs) = none := by
      simp [combineStages, h2, h3]
    exact ⟨hc, by rw [hstep, hc]; rfl⟩
  · refine ⟨(stage3Of o tc joined_df right_df cs).dedup, ?_, ?_, ?_⟩
    · simp [combineStages, h2, List.isEmpty_iff, h3]
    · ext a
      simp [List.mem_dedup]
    · rw [hstep]
      have hc : combineStages (stage2Of o tc joined_df right_df cs)
          (stage3Of o tc joined_df right_df cs) =
          some (stage3Of o tc joined_df right_df cs).dedup := by
        simp [combineStages, h2, List.isEmpty_iff, h3]
      rw [hc]
  · refine ⟨(stage2Of o tc joined_df right_df cs).dedup.filter
      (fun f => decide (f ∈ stage3Of o tc joined_df right_df cs)), ?_, ?_, ?_⟩
    · simp [combineStages, List.isEmpty_iff, h2]
    · ext a
      simp [List.mem_filter, List.mem_dedup, Finset.mem_inter]
    · rw [hstep]
      have hc : combineStages (stage2Of o tc joined_df right_df cs)
          (stage3Of o tc joined_df right_df cs) =
          some ((stage2Of o tc joined_df right_df cs).dedup.filter
            (fun f => decide (f ∈ stage3Of o tc joined_df right_df cs))) := by
        simp [combineStages, List.isEmpty_iff, h2]
      rw [hc]

/-- C2 witness: a concrete invocation with a non-empty Stage 1, empty Stage 2
and non-empty Stage 3 set. -/
theorem c2_witness :
    (lookupFM [("A", ["A.x"])] "A" = some ["A.x"] ∧
     relevantOf oW2 "y" dfJ dfR ≠ []) ∧
    (stage2Of oW2 "y" dfJ dfR ["A.x"] = [] → stage3Of oW2 "y" dfJ dfR ["A.x"] ≠ [] →
      ∃ l, combineStages (stage2Of oW2 "y" dfJ dfR ["A.x"])
          (stage3Of oW2 "y" dfJ dfR ["A.x"]) = some l ∧
        l.toFinset = (stage3Of oW2 "y" dfJ dfR ["A.x"]).toFinset ∧
        step_feature_selection oW2 "y" [("A", ["A.x"])] dfJ dfR "A" "A--A-k-R-k" =
          some (stage4 oW2 (oW2.prepare_data_for_ml dfJ "y").1
            (oW2.prepare_data_for_ml dfJ "y").2 ["A.x"] [("A", ["A.x"])] "A--A-k-R-k"
            (some l))) :=
  ⟨⟨by decide, by decide⟩,
   (c2_cascade_combination oW2 "y" [("A", ["A.x"])] dfJ dfR "A" "A--A-k-R-k" ["A.x"]
     (by decide) (by decide)).2.1⟩

/-- Unfolding of `processProp` through the named quantities `joinedOf` and
`joinNameOf` (definitional). -/
theorem processProp_eq (o : Oracles) (vr : ℚ) (vrStr tc : String) (right_df : DataFrame)
    (rl pjn : String) (pj : DataFrame) (prop : RelProp) (st : PipeState) :
    processProp o vr vrStr tc right_df rl pjn pj prop st =
      if prop.join_prop.from_label ≠ prop.from_table ∧ prop.join_prop.weight < 1 then
        some (st, false)
      else if step_data_quality vr prop (joinedOf o vrStr right_df rl pjn pj prop st) = false then
        some (st, true)
      else
        match step_feature_selection o tc st.partial_join_selected_features
            (joinedOf o vrStr right_df rl pjn pj prop st) right_df pjn (joinNameOf pjn prop) with
        | none => none
        | some (none, pjsf2) =>
          some ({ st with partial_join_selected_features := pjsf2 }, true)
        | some (some feats, pjsf2) =>
          some ({ join_name_mapping := insertFM st.join_name_mapping (joinNameOf pjn prop)
                    (mkJoinFilename vrStr (st.join_name_mapping.length + 1)),
                  current_queue :=
                    if joinNameOf pjn prop ∈ st.current_queue then st.current_queue
                    else st.current_queue ++ [joinNameOf pjn prop],
                  ranked_paths := step_rank_path o tc st.ranked_paths
                    (joinedOf o vrStr right_df rl pjn pj prop st) feats (joinNameOf pjn prop),
                  partial_join_selected_features := pjsf2 }, true) := rfl

/-- C9: when Stage 1's relevant set is empty the cascade returns `None`, no
ranked-path entry is produced and the traversal state is left unchanged, so
the traversal continues with the next relation. -/
theorem c9_relevance_rejection
    (o : Oracles) (vr : ℚ) (vrStr tc : String) (right_df : DataFrame) (rl pjn : String)
    (pj : DataFrame) (prop : RelProp) (st : PipeState) (cs : List String)
    (hfilter : ¬(prop.join_prop.from_label ≠ prop.from_table ∧ prop.join_prop.weight < 1))
    (hlook : lookupFM st.partial_join_selected_features pjn = some cs)
    (hgate : step_data_quality vr prop (joinedOf o vrStr right_df rl pjn pj prop st) = true)
    (hrel : relevantOf o tc (joinedOf o vrStr right_df rl pjn pj prop st) right_df = []) :
    step_feature_selection o tc st.partial_join_selected_features
        (joinedOf o vrStr right_df rl pjn pj prop st) right_df pjn (joinNameOf pjn prop) =
      some (none, st.partial_join_selected_features) ∧
    processProp o vr vrStr tc right_df rl pjn pj prop st = some (st, true) := by
  have hfs : step_feature_selection o tc st.partial_join_selected_features
      (joinedOf o vrStr right_df rl pjn pj prop st) right_df pjn (joinNameOf pjn prop) =
      some (none, st.partial_join_selected_features) := by
    rw [step_feature_selection, hlook]
    simp [hrel]
  refine ⟨hfs, ?_⟩
  rw [processProp_eq o vr vrStr tc right_df rl pjn pj prop st, if_neg hfilter, hgate]
  simp [hfs]

/-- C9 witness: a concrete relation whose only candidate feature is rejected
by the relevance filter. -/
theorem c9_witness :
    ((¬(propW.join_prop.from_label ≠ propW.from_table ∧ propW.join_prop.weight < 1)) ∧
     lookupFM (PipeState.mk [] [] [] [("A", ["A.x"])]).partial_join_selected_features "A" =
       some ["A.x"] ∧
     step_data_quality (1/2) propW
       (joinedOf oW3 "0.5" dfR "R" "A" dfA propW (PipeState.mk [] [] [] [("A", ["A.x"])])) =
       true ∧
     relevantOf oW3 "y"
       (joinedOf oW3 "0.5" dfR "R" "A" dfA propW (PipeState.mk [] [] [] [("A", ["A.x"])]))
       dfR = []) ∧
    processProp oW3 (1/2) "0.5" "y" dfR "R" "A" dfA propW
        (PipeState.mk [] [] [] [("A", ["A.x"])]) =
      some (PipeState.mk [] [] [] [("A", ["A.x"])], true) :=
  ⟨⟨by decide, by decide, by
     have h1 : dfJ.countCol (propW.to_table ++ "." ++ propW.join_prop.to_column) = 1 := by
       decide
     have h2 : dfJ.nrows = 1 := by decide
     show step_data_quality (1/2) propW dfJ = true
     rw [step_data_quality, h1, h2, if_neg (by norm_num)], by decide⟩,
   (c9_relevance_rejection oW3 (1/2) "0.5" "y" dfR "R" "A" dfA propW
     (PipeState.mk [] [] [] [("A", ["A.x"])]) ["A.x"]
     (by decide) (by decide) (by
     have h1 : dfJ.countCol (propW.to_table ++ "." ++ propW.join_prop.to_column) = 1 := by
       decide
     have h2 : dfJ.nrows = 1 := by decide
     show step_data_quality (1/2) propW dfJ = true
     rw [step_data_quality, h1, h2, if_neg (by norm_num)]) (by decide)).2⟩

/-- Surviving candidate sets of the combination rule come from Stage 2 or
Stage 3. -/
theorem combineStages_subset (a b l : List String) (h : combineStages a b = some l) :
    l ⊆ a ∨ l ⊆ b := by
  rw [combineStages] at h
  by_cases ha : a.isEmpty
  · by_cases hb : b.isEmpty
    · simp [ha, hb] at h
    · right
      simp only [ha, hb, if_true, Bool.false_eq_true, if_false, Option.some_inj] at h
      rw [← h]
      intro x hx
      exact List.mem_dedup.mp hx
  · left
    simp only [ha, Bool.false_eq_true, if_false, Option.some_inj] at h
    rw [← h]
    intro x hx
    exact List.mem_dedup.mp (List.mem_of_mem_filter hx)

/-- C10: the target column is removed from the candidate feature list before
Stage 1 and is never added to a path's accepted-feature list by the cascade
(given that the measure filters return sublists of their candidate inputs,
the right table has no duplicated target column, and the ancestor list does
not contain the target). -/
theorem c10_target_excluded
    (o : Oracles) (tc : String) (pjsf : List (String × List String))
    (joined_df right_df : DataFrame) (pjn cjn : String) (cs : List String)
    (hcount : right_df.cols.count tc ≤ 1)
    (hrel : ∀ df l y, o.measure_relevance df l y ⊆ l)
    (hcr : ∀ X s l y, o.measure_conditional_redundancy X s l y ⊆ l)
    (hjmi : ∀ X s l y, o.measure_joint_mutual_information X s l y ⊆ l)
    (hred : ∀ X l y, o.measure_redundancy X l y ⊆ l)
    (hlook : lookupFM pjsf pjn = some cs)
    (hcs : tc ∉ cs) :
    tc ∉ rightFeaturesOf tc right_df ∧
    ∀ l pjsf2, step_feature_selection o tc pjsf joined_df right_df pjn cjn =
        some (some l, pjsf2) → tc ∉ l := by
  have hrf : tc ∉ rightFeaturesOf tc right_df := by
    rw [rightFeaturesOf]
    by_cases hmem : tc ∈ right_df.cols
    · rw [if_pos hmem]
      intro hc
      have h1 : 0 < (right_df.cols.erase tc).count tc := List.count_pos_iff.mpr hc
      rw [List.count_erase_self] at h1
      omega
    · rw [if_neg hmem]
      exact hmem
  refine ⟨hrf, fun l pjsf2 h => ?_⟩
  rw [step_feature_selection, hlook] at h
  by_cases hre : (relevantOf o tc joined_df right_df).isEmpty
  · simp [hre] at h
  · simp only [hre, Bool.false_eq_true, if_false, Option.some_inj] at h
    rcases hcomb : combineStages (stage2Of o tc joined_df right_df cs)
        (stage3Of o tc joined_df right_df cs) with _ | sel
    · rw [hcomb] at h
      simp [stage4] at h
    · rw [hcomb] at h
      by_cases hrd : (o.measure_redundancy (o.prepare_data_for_ml joined_df tc).1 sel
          (o.prepare_data_for_ml joined_df tc).2).isEmpty
      · simp [stage4, hrd] at h
      · simp only [stage4, hrd, Bool.false_eq_true, if_false, Prod.mk.injEq,
          Option.some_inj] at h
        obtain ⟨hl, _⟩ := h
        rw [← hl]
        intro hmem
        have hsel : tc ∉ sel := by
          intro hs
          have : tc ∈ relevantOf o tc joined_df right_df := by
            rcases combineStages_subset _ _ _ hcomb with h2 | h3
            · exact hcr _ _ _ _ (h2 hs)
            · exact hjmi _ _ _ _ (h3 hs)
          exact hrf (hrel _ _ _ this)
        rcases List.mem_append.mp hmem with hm | hm
        · exact hsel (hred _ _ _ hm)
        · exact hcs hm

/-- C10 witness: a concrete invocation with sublist-returning measure filters
where the target column never reaches the accepted list. -/
theorem c10_witness :
    (dfR.cols.count "y" ≤ 1 ∧
     lookupFM [("A", ["A.x"])] "A" = some ["A.x"] ∧ "y" ∉ ["A.x"]) ∧
    ("y" ∉ rightFeaturesOf "y" dfR ∧
     ∀ l pjsf2, step_feature_selection oW "y" [("A", ["A.x"])] dfJ dfR "A" "A--A-k-R-k" =
        some (some l, pjsf2) → "y" ∉ l) :=
  ⟨⟨by decide, by decide, by decide⟩,
   c10_target_excluded oW "y" [("A", ["A.x"])] dfJ dfR "A" "A--A-k-R-k" ["A.x"]
     (by decide) (fun _ _ _ => fun _ ha => ha) (fun _ _ _ _ => fun _ ha => ha)
     (fun _ _ _ _ => fun _ ha => ha) (fun _ _ _ => fun _ ha => ha)
     (by decide) (by decide)⟩

theorem digitCharOf_inj :
    ∀ d₁ < 10, ∀ d₂ < 10, digitCharOf d₁ = digitCharOf d₂ → d₁ = d₂ := by decide

theorem mapDigitCharOf_inj :
    ∀ l₁ l₂ : List Nat, (∀ d ∈ l₁, d < 10) → (∀ d ∈ l₂, d < 10) →
      l₁.map digitCharOf = l₂.map digitCharOf → l₁ = l₂ := by
  intro l₁
  induction l₁ with
  | nil =>
    intro l₂ _ _ h
    cases l₂ with
    | nil => rfl
    | cons b bs => simp at h
  | cons a as ih =>
    intro l₂ h₁ h₂ h
    cases l₂ with
    | nil => simp at h
    | cons b bs =>
      simp only [List.map_cons, List.cons.injEq] at h
      have ha : a = b := digitCharOf_inj a (h₁ a (by simp)) b (h₂ b (by simp)) h.1
      have hs : as = bs := ih bs (fun d hd => h₁ d (by simp [hd]))
        (fun d hd => h₂ d (by simp [hd])) h.2
      rw [ha, hs]

theorem natRepr_inj_pos (m n : Nat) (hm : 0 < m) (hn : 0 < n)
    (h : natRepr m = natRepr n) : m = n := by
  rw [natRepr, natRepr, if_neg (by omega), if_neg (by omega)] at h
  have hd := congrArg String.data h
  simp only [List.reverse_inj] at hd
  have hdig : decDigits m = decDigits n := by
    refine mapDigitCharOf_inj _ _ ?_ ?_ hd
    · intro d hdm
      rw [decDigits_eq] at hdm
      exact Nat.digits_lt_base (by norm_num) hdm
    · intro d hdn
      rw [decDigits_eq] at hdn
      exact Nat.digits_lt_base (by norm_num) hdn
  rw [decDigits_eq, decDigits_eq] at hdig
  exact Nat.digits.injective 10 hdig

theorem mkJoinFilename_inj (vrStr : String) (i j : Nat) (hi : 0 < i) (hj : 0 < j)
    (h : mkJoinFilename vrStr i = mkJoinFilename vrStr j) : i = j := by
  have hd := congrArg String.data h
  simp only [mkJoinFilename, String.data_append, List.append_assoc] at hd
  have h1 := List.append_cancel_left hd
  have h2 := List.append_cancel_left h1
  have h3 := List.append_cancel_left h2
  have h4 := List.append_cancel_right h3
  exact natRepr_inj_pos i j hi hj (String.ext h4)

theorem mappingInv_distinct (vrStr : String) (m : List (String × String))
    (hinv : mappingInv vrStr m) :
    ∀ i j kv₁ kv₂, m.get? i = some kv₁ → m.get? j = some kv₂ → i ≠ j → kv₁.2 ≠ kv₂.2 := by
  intro i j kv1 kv2 h1 h2 hne heq
  have e1 := hinv i kv1 h1
  have e2 := hinv j kv2 h2
  rw [e1, e2] at heq
  exact hne (by
    have := mkJoinFilename_inj vrStr (i + 1) (j + 1) (Nat.succ_pos i) (Nat.succ_pos j) heq
    omega)

theorem mappingInv_append (vrStr : String) (m : List (String × String)) (kn : String)
    (hinv : mappingInv vrStr m) :
    mappingInv vrStr (m ++ [(kn, mkJoinFilename vrStr (m.length + 1))]) := by
  intro i kv h
  by_cases hi : i < m.length
  · rw [List.get?_append hi] at h
    exact hinv i kv h
  · have hieq : i = m.length := by
      rcases Nat.lt_or_ge i (m.length + 1) with h1 | h1
      · omega
      · rw [List.get?_eq_none.mpr (by simpa using h1)] at h
        cases h
    subst hieq
    rw [List.get?_append_right (le_refl m.length), Nat.sub_self] at h
    simp only [List.get?] at h
    cases h
    rfl

/-- C1 (amended): in the `BfsAugmentation` pipeline, a join whose right-key
non-null ratio is strictly below the threshold is rejected: the traversal
state — in particular `current_queue` and `join_name_mapping` — is left
unchanged.  (In `trial_error`'s variant the mapping entry is inserted before
the gate; see the counterexample.) -/
theorem c1_quality_gate_bfs
    (o : Oracles) (vr : ℚ) (vrStr tc : String) (right_df : DataFrame) (rl pjn : String)
    (pj : DataFrame) (prop : RelProp) (st : PipeState)
    (hq : ((joinedOf o vrStr right_df rl pjn pj prop st).countCol
        (prop.to_table ++ "." ++ prop.join_prop.to_column) : ℚ) /
        ((joinedOf o vrStr right_df rl pjn pj prop st).nrows : ℚ) < vr) :
    step_data_quality vr prop (joinedOf o vrStr right_df rl pjn pj prop st) = false ∧
    ∃ ex, processProp o vr vrStr tc right_df rl pjn pj prop st = some (st, ex) := by
  have hg : step_data_quality vr prop (joinedOf o vrStr right_df rl pjn pj prop st) = false := by
    rw [step_data_quality, if_pos hq]
  refine ⟨hg, ?_⟩
  rw [processProp_eq o vr vrStr tc right_df rl pjn pj prop st]
  by_cases hf : prop.join_prop.from_label ≠ prop.from_table ∧ prop.join_prop.weight < 1
  · exact ⟨false, by rw [if_pos hf]⟩
  · exact ⟨true, by rw [if_neg hf, if_pos hg]⟩

/-- C1 witness: a concrete gate-rejected join in the `BfsAugmentation`
pipeline leaves the state unchanged. -/
theorem c1_witness :
    (((joinedOf oLow "0.5" dfT "T" "A" dfA propT (PipeState.mk [] [] [] [])).countCol
        (propT.to_table ++ "." ++ propT.join_prop.to_column) : ℚ) /
      ((joinedOf oLow "0.5" dfT "T" "A" dfA propT (PipeState.mk [] [] [] [])).nrows : ℚ) <
      1 / 2) ∧
    (step_data_quality (1 / 2) propT
        (joinedOf oLow "0.5" dfT "T" "A" dfA propT (PipeState.mk [] [] [] [])) = false ∧
     ∃ ex, processProp oLow (1 / 2) "0.5" "y" dfT "T" "A" dfA propT
        (PipeState.mk [] [] [] []) = some (PipeState.mk [] [] [] [], ex)) := by
  have hc : (joinedOf oLow "0.5" dfT "T" "A" dfA propT (PipeState.mk [] [] [] [])).countCol
      (propT.to_table ++ "." ++ propT.join_prop.to_column) = 1 := by decide
  have hn : (joinedOf oLow "0.5" dfT "T" "A" dfA propT (PipeState.mk [] [] [] [])).nrows = 4 := by
    decide
  have hq : ((joinedOf oLow "0.5" dfT "T" "A" dfA propT (PipeState.mk [] [] [] [])).countCol
      (propT.to_table ++ "." ++ propT.join_prop.to_column) : ℚ) /
      ((joinedOf oLow "0.5" dfT "T" "A" dfA propT (PipeState.mk [] [] [] [])).nrows : ℚ) <
      1 / 2 := by
    rw [hc, hn]
    norm_num
  exact ⟨hq, c1_quality_gate_bfs oLow (1 / 2) "0.5" "y" dfT "T" "A" dfA propT
    (PipeState.mk [] [] [] []) hq⟩

/-- Unfolding of `trialProcessProp` through the named quantity
`trialJoinedOf` (definitional). -/
theorem trialProcessProp_eq (o : Oracles) (vr : ℚ) (tc rl pjn : String) (pj : DataFrame)
    (prop : RelProp) (right_df : DataFrame) (st : TrialState) :
    trialProcessProp o vr tc rl pjn pj prop right_df st =
      if prop.join_prop.from_label ≠ prop.from_table then (st, right_df)
      else
        if ((trialJoinedOf o right_df rl pj prop st).countCol
            (prop.to_table ++ "." ++ prop.join_prop.to_column) : ℚ) /
            ((trialJoinedOf o right_df rl pj prop st).nrows : ℚ) < vr then
          ({ st with join_name_mapping := (insertFM st.join_name_mapping (joinNameOf pjn prop) ("join" ++ natRepr (st.join_name_mapping.length + 1) ++ ".csv")) },
           groupbySample right_df (rl ++ "." ++ prop.join_prop.to_column) 42)
        else
          ({ join_name_mapping := (insertFM st.join_name_mapping (joinNameOf pjn prop) ("join" ++ natRepr (st.join_name_mapping.length + 1) ++ ".csv")),
             current_queue :=
               if joinNameOf pjn prop ∈ st.current_queue then st.current_queue
               else st.current_queue ++ [joinNameOf pjn prop],
             train_results := st.train_results ++ [joinNameOf pjn prop] ++
               o.select_features_train (trialJoinedOf o right_df rl pj prop st)
                 (groupbySample right_df (rl ++ "." ++ prop.join_prop.to_column) 42) tc
                 (joinNameOf pjn prop) },
           groupbySample right_df (rl ++ "." ++ prop.join_prop.to_column) 42) := rfl

/-- In `trial_error`'s pipeline a gate-rejected join still inserts its
mapping entry (the insertion happens before the gate), while the path
frontier is left unchanged. -/
theorem trial_gate_keeps_mapping (o : Oracles) (vr : ℚ) (tc rl pjn : String)
    (pj : DataFrame) (prop : RelProp) (right_df : DataFrame) (st : TrialState)
    (hfil : prop.join_prop.from_label = prop.from_table)
    (hq : ((trialJoinedOf o right_df rl pj prop st).countCol
        (prop.to_table ++ "." ++ prop.join_prop.to_column) : ℚ) /
        ((trialJoinedOf o right_df rl pj prop st).nrows : ℚ) < vr) :
    (trialProcessProp o vr tc rl pjn pj prop right_df st).1.join_name_mapping =
      insertFM st.join_name_mapping (joinNameOf pjn prop)
        ("join" ++ natRepr (st.join_name_mapping.length + 1) ++ ".csv") ∧
    (trialProcessProp o vr tc rl pjn pj prop right_df st).1.current_queue =
      st.current_queue := by
  rw [trialProcessProp_eq, if_neg (by simp [hfil]), if_pos hq]
  exact ⟨rfl, rfl⟩

/-- C1 counterexample: in `trial_error.bfs_traverse_join_pipeline` a join
whose right-key non-null ratio (1/4) is below the threshold (1/2) still gets
an entry in `join_name_mapping`, contradicting the claim that no entry is
added for a gate-rejected join. -/
theorem c1_counterexample :
    (((trialJoinedOf oLow dfT "T" dfA propT (TrialState.mk [] [] [])).countCol
        (propT.to_table ++ "." ++ propT.join_prop.to_column) : ℚ) /
      ((trialJoinedOf oLow dfT "T" dfA propT (TrialState.mk [] [] [])).nrows : ℚ) <
      1 / 2) ∧
    (trialProcessProp oLow (1 / 2) "y" "T" "A" dfA propT dfT
        (TrialState.mk [] [] [])).1.join_name_mapping =
      [(joinNameOf "A" propT, "join1.csv")] ∧
    (trialProcessProp oLow (1 / 2) "y" "T" "A" dfA propT dfT
        (TrialState.mk [] [] [])).1.current_queue = [] := by
  have hc : (trialJoinedOf oLow dfT "T" dfA propT (TrialState.mk [] [] [])).countCol
      (propT.to_table ++ "." ++ propT.join_prop.to_column) = 1 := by decide
  have hn : (trialJoinedOf oLow dfT "T" dfA propT (TrialState.mk [] [] [])).nrows = 4 := by
    decide
  have hq : ((trialJoinedOf oLow dfT "T" dfA propT (TrialState.mk [] [] [])).countCol
      (propT.to_table ++ "." ++ propT.join_prop.to_column) : ℚ) /
      ((trialJoinedOf oLow dfT "T" dfA propT (TrialState.mk [] [] [])).nrows : ℚ) <
      1 / 2 := by
    rw [hc, hn]
    norm_num
  obtain ⟨h1, h2⟩ := trial_gate_keeps_mapping oLow (1 / 2) "y" "T" "A" dfA propT dfT
    (TrialState.mk [] [] []) (by decide) hq
  refine ⟨hq, ?_, h2⟩
  rw [h1]
  decide

/-- Executed-flag characterization: `processProp` runs the join pipeline for
a relation exactly when the relation passes the line-105 direction/weight
check. -/
theorem processProp_ex (o : Oracles) (vr : ℚ) (vrStr tc : String) (right_df : DataFrame)
    (rl pjn : String) (pj : DataFrame) (prop : RelProp) (st : PipeState)
    (st' : PipeState) (ex : Bool)
    (h : processProp o vr vrStr tc right_df rl pjn pj prop st = some (st', ex)) :
    ex = !decide (prop.join_prop.from_label ≠ prop.from_table ∧ prop.join_prop.weight < 1) := by
  rw [processProp_eq] at h
  by_cases hf : prop.join_prop.from_label ≠ prop.from_table ∧ prop.join_prop.weight < 1
  · rw [if_pos hf] at h
    simp only [Option.some_inj, Prod.mk.injEq] at h
    simp [hf, ← h.2]
  · rw [if_neg hf] at h
    simp only [hf, decide_False, Bool.not_false]
    by_cases hg : step_data_quality vr prop (joinedOf o vrStr right_df rl pjn pj prop st) = false
    · rw [if_pos hg] at h
      simp only [Option.some_inj, Prod.mk.injEq] at h
      exact h.2.symm
    · rw [if_neg hg] at h
      rcases hfs : step_feature_selection o tc st.partial_join_selected_features
          (joinedOf o vrStr right_df rl pjn pj prop st) right_df pjn (joinNameOf pjn prop) with
        _ | ⟨fo, pjsf2⟩
      · rw [hfs] at h
        cases h
      · rw [hfs] at h
        cases fo
        · simp only [Option.some_inj, Prod.mk.injEq] at h
          exact h.2.symm
        · simp only [Option.some_inj, Prod.mk.injEq] at h
          exact h.2.symm

/-- C6 (amended): over `BfsAugmentation`'s relation loop the join pipeline
is executed for exactly the relations passing the line-105 check (skipped:
`from_label != from_table` and `weight < 1`); in `trial_error`'s relation
loop the line-68 check skips every relation with
`from_label != from_table`, regardless of weight, while every
direction-matching relation is tried (its join name and counter filename
are recorded).  Beyond these caller-side filters only the type, quality
and cascade rejections apply. -/
theorem c6_relations_tried (o : Oracles) (vr : ℚ) (vrStr tc : String) (right_df : DataFrame)
    (rl pjn : String) (pj : DataFrame) :
    (∀ props (st st2 : PipeState) exs,
      processProps o vr vrStr tc right_df rl pjn pj props st = some (st2, exs) →
      exs = props.filter
        (fun p => !decide (p.join_prop.from_label ≠ p.from_table ∧ p.join_prop.weight < 1))) ∧
    (∀ (prop : RelProp) (tst : TrialState),
      (prop.join_prop.from_label ≠ prop.from_table →
        trialProcessProp o vr tc rl pjn pj prop right_df tst = (tst, right_df)) ∧
      (prop.join_prop.from_label = prop.from_table →
        (trialProcessProp o vr tc rl pjn pj prop right_df tst).1.join_name_mapping =
          insertFM tst.join_name_mapping (joinNameOf pjn prop)
            ("join" ++ natRepr (tst.join_name_mapping.length + 1) ++ ".csv"))) := by
  constructor
  · intro props
    induction props with
    | nil =>
      intro st st2 exs h
      simp only [processProps, Option.some_inj, Prod.mk.injEq] at h
      rw [← h.2]
      rfl
    | cons p ps ih =>
      intro st st2 exs h
      rcases h1 : processProp o vr vrStr tc right_df rl pjn pj p st with _ | ⟨st1, ex⟩
      · simp only [processProps, h1] at h
        exact Option.noConfusion h
      · rcases h2 : processProps o vr vrStr tc right_df rl pjn pj ps st1 with _ | ⟨st3, exs'⟩
        · simp only [processProps, h1, h2] at h
          exact Option.noConfusion h
        · simp only [processProps, h1, h2, Option.some_inj, Prod.mk.injEq] at h
          rw [← h.2, ih st1 st3 exs' h2, processProp_ex o vr vrStr tc right_df rl pjn pj p st
            st1 ex h1]
          by_cases hf : p.join_prop.from_label ≠ p.from_table ∧ p.join_prop.weight < 1
          · simp [hf, List.filter]
          · simp [hf, List.filter]
  · intro prop tst
    constructor
    · intro hne
      rw [trialProcessProp_eq, if_pos hne]
    · intro heq
      rw [trialProcessProp_eq, if_neg (by simp [heq])]
      by_cases hg : ((trialJoinedOf o right_df rl pj prop tst).countCol
          (prop.to_table ++ "." ++ prop.join_prop.to_column) : ℚ) /
          ((trialJoinedOf o right_df rl pj prop tst).nrows : ℚ) < vr
      · rw [if_pos hg]
      · rw [if_neg hg]

/-- C6 counterexample: a relation with mismatched direction and weight below
one is returned by the resolver but the join pipeline is never executed for
it — the executed-relation list of the loop stays empty. -/
theorem c6_counterexample :
    (propF.join_prop.from_label ≠ propF.from_table ∧ propF.join_prop.weight < 1) ∧
    processProps oW (1 / 2) "0.5" "y" dfT "T" "A" dfA [propF] (PipeState.mk [] [] [] []) =
      some (PipeState.mk [] [] [] [], []) := by
  have hf : propF.join_prop.from_label ≠ propF.from_table ∧ propF.join_prop.weight < 1 :=
    ⟨by decide, by norm_num [propF]⟩
  have h1 : processProp oW (1 / 2) "0.5" "y" dfT "T" "A" dfA propF
      (PipeState.mk [] [] [] []) = some (PipeState.mk [] [] [] [], false) := by
    rw [processProp_eq, if_pos hf]
  refine ⟨hf, ?_⟩
  simp only [processProps, h1]
  rfl

/-- C6 witness: the executed-relation list of a concrete loop run matches
the line-105 filter, and a direction-mismatched weight-one relation is
skipped by the trial_error loop. -/
theorem c6_witness :
    ((processProps oW (1 / 2) "0.5" "y" dfT "T" "A" dfA [propF] (PipeState.mk [] [] [] []) =
      some (PipeState.mk [] [] [] [], [])) ∧
     ([] : List RelProp) = [propF].filter
       (fun p => !decide (p.join_prop.from_label ≠ p.from_table ∧ p.join_prop.weight < 1))) ∧
    (propD.join_prop.from_label ≠ propD.from_table ∧
     trialProcessProp oW (1 / 2) "y" "T" "A" dfA propD dfT (TrialState.mk [] [] []) =
       (TrialState.mk [] [] [], dfT)) := by
  have hf : propF.join_prop.from_label ≠ propF.from_table ∧ propF.join_prop.weight < 1 :=
    ⟨by decide, by norm_num [propF]⟩
  have h1 : processProp oW (1 / 2) "0.5" "y" dfT "T" "A" dfA propF
      (PipeState.mk [] [] [] []) = some (PipeState.mk [] [] [] [], false) := by
    rw [processProp_eq, if_pos hf]
  have h : processProps oW (1 / 2) "0.5" "y" dfT "T" "A" dfA [propF]
      (PipeState.mk [] [] [] []) = some (PipeState.mk [] [] [] [], []) := by
    simp only [processProps, h1]
    rfl
  have hd : propD.join_prop.from_label ≠ propD.from_table := by decide
  exact ⟨⟨h, (c6_relations_tried oW (1 / 2) "0.5" "y" dfT "T" "A" dfA).1 [propF]
      (PipeState.mk [] [] [] []) (PipeState.mk [] [] [] []) [] h⟩,
    hd, ((c6_relations_tried oW (1 / 2) "0.5" "y" dfT "T" "A" dfA).2 propD
      (TrialState.mk [] [] [])).1 hd⟩

/-- C8: per attempted relation, `join_name_mapping` is append-only, gains
exactly one entry when and only when the join passed the quality gate and
the cascade accepted it, the appended entry's filename is derived from the
incrementing counter, and distinct entries always carry distinct on-disk
filenames. -/
theorem c8_mapping_append_only
    (o : Oracles) (vr : ℚ) (vrStr tc : String) (right_df : DataFrame) (rl pjn : String)
    (pj : DataFrame) (prop : RelProp) (st : PipeState)
    (hfilter : ¬(prop.join_prop.from_label ≠ prop.from_table ∧ prop.join_prop.weight < 1))
    (hfresh : lookupFM st.join_name_mapping (joinNameOf pjn prop) = none)
    (hinv : mappingInv vrStr st.join_name_mapping) :
    ∀ st' ex, processProp o vr vrStr tc right_df rl pjn pj prop st = some (st', ex) →
      ((joinAccepted o vr vrStr tc right_df rl pjn pj prop st ∧
        st'.join_name_mapping = st.join_name_mapping ++
          [(joinNameOf pjn prop, mkJoinFilename vrStr (st.join_name_mapping.length + 1))]) ∨
       (¬joinAccepted o vr vrStr tc right_df rl pjn pj prop st ∧
        st'.join_name_mapping = st.join_name_mapping)) ∧
      mappingInv vrStr st'.join_name_mapping ∧
      (∀ i j kv₁ kv₂, st'.join_name_mapping.get? i = some kv₁ →
        st'.join_name_mapping.get? j = some kv₂ → i ≠ j → kv₁.2 ≠ kv₂.2) := by
  intro st' ex h
  rw [processProp_eq, if_neg hfilter] at h
  by_cases hg : step_data_quality vr prop (joinedOf o vrStr right_df rl pjn pj prop st) = false
  · rw [if_pos hg] at h
    simp only [Option.some_inj, Prod.mk.injEq] at h
    rw [← h.1]
    refine ⟨Or.inr ⟨fun hacc => ?_, rfl⟩, hinv, mappingInv_distinct vrStr _ hinv⟩
    rw [hacc.1] at hg
    cases hg
  · rw [if_neg hg] at h
    rcases hfs : step_feature_selection o tc st.partial_join_selected_features
        (joinedOf o vrStr right_df rl pjn pj prop st) right_df pjn (joinNameOf pjn prop) with
      _ | ⟨fo, pjsf2⟩
    · rw [hfs] at h
      cases h
    · rw [hfs] at h
      cases fo with
      | none =>
        simp only [Option.some_inj, Prod.mk.injEq] at h
        rw [← h.1]
        refine ⟨Or.inr ⟨fun hacc => ?_, rfl⟩, hinv, mappingInv_distinct vrStr _ hinv⟩
        obtain ⟨feats, pjsf3, hfs'⟩ := hacc.2
        rw [hfs] at hfs'
        cases hfs'
      | some feats =>
        simp only [Option.some_inj, Prod.mk.injEq] at h
        have hmap : st'.join_name_mapping = st.join_name_mapping ++
            [(joinNameOf pjn prop, mkJoinFilename vrStr (st.join_name_mapping.length + 1))] := by
          rw [← h.1]
          exact insertFM_eq_append st.join_name_mapping (joinNameOf pjn prop) _ hfresh
        have hacc : joinAccepted o vr vrStr tc right_df rl pjn pj prop st := by
          refine ⟨?_, feats, pjsf2, hfs⟩
          cases hgb : step_data_quality vr prop (joinedOf o vrStr right_df rl pjn pj prop st)
          · exact absurd hgb hg
          · rfl
        have hinv' : mappingInv vrStr st'.join_name_mapping := by
          rw [hmap]
          exact mappingInv_append vrStr st.join_name_mapping (joinNameOf pjn prop) hinv
        exact ⟨Or.inl ⟨hacc, hmap⟩, hinv', mappingInv_distinct vrStr _ hinv'⟩

/-- C8 witness: a concrete accepted join appends exactly one counter-named
entry to an empty mapping. -/
theorem c8_witness :
    ((¬(propW.join_prop.from_label ≠ propW.from_table ∧ propW.join_prop.weight < 1)) ∧
     lookupFM ([] : List (String × String)) (joinNameOf "A" propW) = none) ∧
    (∀ st' ex, processProp oW (1 / 2) "0.5" "y" dfR "R" "A" dfA propW
        (PipeState.mk [] [] [] [("A", ["A.x"])]) = some (st', ex) →
      ((joinAccepted oW (1 / 2) "0.5" "y" dfR "R" "A" dfA propW
          (PipeState.mk [] [] [] [("A", ["A.x"])]) ∧
        st'.join_name_mapping = [] ++ [(joinNameOf "A" propW, mkJoinFilename "0.5" (0 + 1))]) ∨
       (¬joinAccepted oW (1 / 2) "0.5" "y" dfR "R" "A" dfA propW
          (PipeState.mk [] [] [] [("A", ["A.x"])]) ∧
        st'.join_name_mapping = [])) ∧
      mappingInv "0.5" st'.join_name_mapping ∧
      (∀ i j kv₁ kv₂, st'.join_name_mapping.get? i = some kv₁ →
        st'.join_name_mapping.get? j = some kv₂ → i ≠ j → kv₁.2 ≠ kv₂.2)) :=
  ⟨⟨by decide, by decide⟩,
   c8_mapping_append_only oW (1 / 2) "0.5" "y" dfR "R" "A" dfA propW
     (PipeState.mk [] [] [] [("A", ["A.x"])]) (by decide) (by decide)
     (fun i kv h => nomatch h)⟩

theorem countKeys_filterMap (keyOf : Row → Option String) (pick : String → Option Row) :
    ∀ ks : List String, ks.Nodup →
      (∀ k ∈ ks, ∃ r, pick k = some r ∧ keyOf r = some k) →
      ∀ v : String, ((ks.filterMap pick).map keyOf).count (some v) =
        if v ∈ ks then 1 else 0 := by
  intro ks
  induction ks with
  | nil =>
    intro _ _ v
    simp
  | cons k ks ih =>
    intro hnd hex v
    obtain ⟨r, hr, hkr⟩ := hex k (by simp)
    obtain ⟨hk1, hk2⟩ := List.nodup_cons.mp hnd
    have hrest := ih hk2 (fun k' hk' => hex k' (by simp [hk'])) v
    rw [List.filterMap_cons, hr, List.map_cons, List.count_cons, hrest, hkr]
    by_cases hv : v = k
    · subst hv
      simp [hk1]
    · simp [hv, Ne.symm hv]

/-- C7: the cardinality reduction yields at most one row per distinct
non-null join-key value — exactly one for each key present in the input —
and, being a pure function of its input, two runs on identical input produce
identical sampled tables. -/
theorem c7_cardinality_reduction (df : DataFrame) (keyCol : String) (v : String) :
    ((groupbySample df keyCol 42).col keyCol).count (some v) ≤ 1 ∧
    (((groupbySample df keyCol 42).col keyCol).count (some v) = 1 ↔
      some v ∈ df.col keyCol) ∧
    (∀ df₂, df₂ = df → groupbySample df₂ keyCol 42 = groupbySample df keyCol 42) := by
  refine ?_
  rcases hidx : df.cols.indexOf? keyCol with _ | i
  · have hout : groupbySample df keyCol 42 = ⟨df.cols, []⟩ := by
      rw [groupbySample, hidx]
    have hcol : (groupbySample df keyCol 42).col keyCol = [] := by
      rw [hout, DataFrame.col]
      simp only [hidx]
    have hcoldf : df.col keyCol = [] := by
      rw [DataFrame.col]
      simp only [hidx]
    refine ⟨by simp [hcol], by simp [hcol, hcoldf], fun df₂ h => by rw [h]⟩
  · have hout : groupbySample df keyCol 42 =
        ⟨df.cols,
         ((df.rows.filterMap (fun r => (r.get? i).join)).dedup).filterMap (fun k =>
           sampleOne 42 (df.rows.filter (fun r => (r.get? i).join == some k)))⟩ := by
      rw [groupbySample, hidx]
    have hexists : ∀ k ∈ (df.rows.filterMap (fun r => (r.get? i).join)).dedup,
        ∃ r, sampleOne 42 (df.rows.filter (fun r => (r.get? i).join == some k)) = some r ∧
          (r.get? i).join = some k := by
      intro k hk
      rw [List.mem_dedup] at hk
      obtain ⟨r0, hr0, hkr0⟩ := List.mem_filterMap.mp hk
      have hmem : r0 ∈ df.rows.filter (fun r => (r.get? i).join == some k) :=
        List.mem_filter.mpr ⟨hr0, beq_iff_eq.mpr hkr0⟩
      have hlen : 0 < (df.rows.filter (fun r => (r.get? i).join == some k)).length :=
        List.length_pos.mpr (List.ne_nil_of_mem hmem)
      have hlt : 42 % (df.rows.filter (fun r => (r.get? i).join == some k)).length <
          (df.rows.filter (fun r => (r.get? i).join == some k)).length :=
        Nat.mod_lt _ hlen
      refine ⟨(df.rows.filter (fun r => (r.get? i).join == some k)).get ⟨_, hlt⟩, ?_, ?_⟩
      · rw [sampleOne, List.get?_eq_get hlt]
      · have hgm := List.get_mem (df.rows.filter (fun r => (r.get? i).join == some k)) _ hlt
        have hmf := List.mem_filter.mp hgm
        exact eq_of_beq hmf.2
    have hcol : (groupbySample df keyCol 42).col keyCol =
        (((df.rows.filterMap (fun r => (r.get? i).join)).dedup).filterMap (fun k =>
           sampleOne 42 (df.rows.filter (fun r => (r.get? i).join == some k)))).map
          (fun r => (r.get? i).join) := by
      rw [hout, DataFrame.col]
      simp only [hidx]
    have hcount := countKeys_filterMap (fun r => (r.get? i).join)
      (fun k => sampleOne 42 (df.rows.filter (fun r => (r.get? i).join == some k)))
      ((df.rows.filterMap (fun r => (r.get? i).join)).dedup) (List.nodup_dedup _)
      hexists v
    have hcoldf : df.col keyCol = df.rows.map (fun r => (r.get? i).join) := by
      rw [DataFrame.col]
      simp only [hidx]
    have hmemiff : v ∈ (df.rows.filterMap (fun r => (r.get? i).join)).dedup ↔
        some v ∈ df.col keyCol := by
      rw [List.mem_dedup, List.mem_filterMap, hcoldf, List.mem_map]
    refine ⟨?_, ?_, fun df₂ h => by rw [h]⟩
    · rw [hcol, hcount]
      split <;> omega
    · rw [hcol, hcount, ← hmemiff]
      by_cases hvk : v ∈ (df.rows.filterMap (fun r => (r.get? i).join)).dedup
      · simp [hvk]
      · simp [hvk]

/-- C7 witness: the reduction of a concrete table keeps exactly one row for
its one non-null key value. -/
theorem c7_witness :
    ((groupbySample dfLow "T.k" 42).col "T.k").count (some "1") ≤ 1 ∧
    (((groupbySample dfLow "T.k" 42).col "T.k").count (some "1") = 1 ↔
      some "1" ∈ dfLow.col "T.k") ∧
    (∀ df₂, df₂ = dfLow → groupbySample df₂ "T.k" 42 = groupbySample dfLow "T.k" 42) :=
  c7_cardinality_reduction dfLow "T.k" "1"

theorem encodeParts_nil : encodeParts [] = [] := rfl

theorem encodeParts_cons (p : String) (l : List String) :
    encodeParts (p :: l) = '-' :: (p.data ++ encodeParts l) := rfl

theorem encodeParts_headSep (l : List String) :
    encodeParts l = [] ∨ (encodeParts l).head? = some '-' := by
  cases l with
  | nil => exact Or.inl rfl
  | cons p ps => exact Or.inr (by rw [encodeParts_cons]; rfl)

theorem sepBlock_cancel :
    ∀ a b u v : List Char, '-' ∉ a → '-' ∉ b →
      (u = [] ∨ u.head? = some '-') → (v = [] ∨ v.head? = some '-') →
      a ++ u = b ++ v → a = b ∧ u = v := by
  intro a
  induction a with
  | nil =>
    intro b u v _ hb hu _ h
    cases b with
    | nil => exact ⟨rfl, h⟩
    | cons c bs =>
      rw [List.nil_append, List.cons_append] at h
      rcases hu with hu | hu
      · rw [hu] at h
        cases h
      · rw [h] at hu
        simp only [List.head?_cons, Option.some_inj] at hu
        exact absurd (by rw [hu]; exact List.mem_cons_self _ _) hb
  | cons x xs ih =>
    intro b u v ha hb hu hv h
    cases b with
    | nil =>
      rw [List.nil_append, List.cons_append] at h
      rcases hv with hv | hv
      · rw [hv] at h
        cases h
      · rw [← h] at hv
        simp only [List.head?_cons, Option.some_inj] at hv
        exact absurd (by rw [hv]; exact List.mem_cons_self _ _) ha
    | cons y ys =>
      simp only [List.cons_append, List.cons.injEq] at h
      obtain ⟨hxy, hrest⟩ := h
      obtain ⟨hab, huv⟩ := ih ys u v (fun hc => ha (List.mem_cons_of_mem x hc))
        (fun hc => hb (List.mem_cons_of_mem y hc)) hu hv hrest
      exact ⟨by rw [hxy, hab], huv⟩

theorem encodeParts_inj :
    ∀ l₁ l₂ : List String, (∀ p ∈ l₁, '-' ∉ p.data) → (∀ p ∈ l₂, '-' ∉ p.data) →
      encodeParts l₁ = encodeParts l₂ → l₁ = l₂ := by
  intro l₁
  induction l₁ with
  | nil =>
    intro l₂ _ _ h
    cases l₂ with
    | nil => rfl
    | cons q qs =>
      rw [encodeParts_nil, encodeParts_cons] at h
      cases h
  | cons p ps ih =>
    intro l₂ h₁ h₂ h
    cases l₂ with
    | nil =>
      rw [encodeParts_nil, encodeParts_cons] at h
      cases h
    | cons q qs =>
      rw [encodeParts_cons, encodeParts_cons] at h
      simp only [List.cons.injEq, true_and] at h
      obtain ⟨hpq, hrest⟩ := sepBlock_cancel p.data q.data (encodeParts ps) (encodeParts qs)
        (h₁ p (by simp)) (h₂ q (by simp)) (encodeParts_headSep ps) (encodeParts_headSep qs) h
      have hps : ps = qs := ih qs (fun r hr => h₁ r (by simp [hr]))
        (fun r hr => h₂ r (by simp [hr])) hrest
      rw [String.ext hpq, hps]

theorem partsOfSeq_nil : partsOfSeq [] = [] := rfl

theorem partsOfSeq_cons (s : JoinStep) (ss : List JoinStep) :
    partsOfSeq (s :: ss) =
      "" :: s.from_table :: s.from_column :: s.to_table :: s.to_column :: partsOfSeq ss := rfl

theorem partsOfSeq_inj : ∀ s₁ s₂ : List JoinStep, partsOfSeq s₁ = partsOfSeq s₂ → s₁ = s₂ := by
  intro s₁
  induction s₁ with
  | nil =>
    intro s₂ h
    cases s₂ with
    | nil => rfl
    | cons u us =>
      rw [partsOfSeq_nil, partsOfSeq_cons] at h
      cases h
  | cons t ts ih =>
    intro s₂ h
    cases s₂ with
    | nil =>
      rw [partsOfSeq_nil, partsOfSeq_cons] at h
      cases h
    | cons u us =>
      rw [partsOfSeq_cons, partsOfSeq_cons] at h
      simp only [List.cons.injEq, true_and] at h
      obtain ⟨h1, h2, h3, h4, h5⟩ := h
      obtain ⟨tf, tc0, tt0, tc1⟩ := t
      obtain ⟨uf, uc0, ut0, uc1⟩ := u
      simp only at h1 h2 h3 h4
      rw [h1, h2, h3, h4, ih us h5]

theorem joinSignature_data (s : JoinStep) :
    (joinSignature s).data = encodeParts (partsOfStep s) := by
  obtain ⟨ft, fc, tt, tc⟩ := s
  show (("--" ++ ft ++ "-" ++ fc ++ "-" ++ tt ++ "-" ++ tc).data) = _
  simp only [String.data_append, partsOfStep, encodeParts, List.map_cons, List.map_nil,
    List.flatten_cons, List.flatten_nil, List.append_nil, List.append_assoc]
  rfl

theorem encodeParts_append (l₁ l₂ : List String) :
    encodeParts (l₁ ++ l₂) = encodeParts l₁ ++ encodeParts l₂ := by
  simp [encodeParts]

theorem pathName_data :
    ∀ (steps : List JoinStep) (base : String),
      (pathName base steps).data = base.data ++ encodeParts (partsOfSeq steps) := by
  intro steps
  induction steps with
  | nil =>
    intro base
    simp [pathName, partsOfSeq_nil, encodeParts_nil]
  | cons s ss ih =>
    intro base
    have hfold : pathName base (s :: ss) =
        pathName (compute_partial_join_filename s base) ss := rfl
    have hsplit : partsOfSeq (s :: ss) = partsOfStep s ++ partsOfSeq ss := rfl
    rw [hfold, ih, compute_partial_join_filename, String.data_append, joinSignature_data,
      hsplit, encodeParts_append, List.append_assoc]

theorem partsOfSeq_sepFree (steps : List JoinStep) (h : ∀ s ∈ steps, SepFree s) :
    ∀ p ∈ partsOfSeq steps, '-' ∉ p.data := by
  intro p hp
  obtain ⟨l, hl, hpl⟩ := List.mem_flatten.mp hp
  obtain ⟨s, hs, rfl⟩ := List.mem_map.mp hl
  obtain ⟨h1, h2, h3, h4⟩ := h s hs
  simp only [partsOfStep, List.mem_cons, List.not_mem_nil, or_false] at hpl
  rcases hpl with rfl | rfl | rfl | rfl | rfl
  · simp
  · exact h1
  · exact h2
  · exact h3
  · exact h4

/-- C5: path naming is injective over join sequences — two distinct
sequences of join steps (all of whose table labels and column names avoid
the separator character) composed onto the same base path name never
collide. -/
theorem c5_path_name_unique (base : String) (steps₁ steps₂ : List JoinStep)
    (h₁ : ∀ s ∈ steps₁, SepFree s) (h₂ : ∀ s ∈ steps₂, SepFree s)
    (hne : steps₁ ≠ steps₂) :
    pathName base steps₁ ≠ pathName base steps₂ := by
  intro h
  apply hne
  have hd := congrArg String.data h
  rw [pathName_data, pathName_data] at hd
  have hd' := List.append_cancel_left hd
  exact partsOfSeq_inj _ _ (encodeParts_inj _ _ (partsOfSeq_sepFree steps₁ h₁)
    (partsOfSeq_sepFree steps₂ h₂) hd')

/-- C5 witness: two concrete distinct one-step sequences produce distinct
path names. -/
theorem c5_witness :
    ((∀ s ∈ [JoinStep.mk "A" "k" "R" "k"], SepFree s) ∧
     (∀ s ∈ [JoinStep.mk "A" "k" "T" "k"], SepFree s) ∧
     [JoinStep.mk "A" "k" "R" "k"] ≠ [JoinStep.mk "A" "k" "T" "k"]) ∧
    pathName "A" [JoinStep.mk "A" "k" "R" "k"] ≠ pathName "A" [JoinStep.mk "A" "k" "T" "k"] :=
  ⟨⟨by decide, by decide, by decide⟩,
   c5_path_name_unique "A" [JoinStep.mk "A" "k" "R" "k"] [JoinStep.mk "A" "k" "T" "k"]
     (by decide) (by decide) (by decide)⟩

theorem discoverAll_nil (st : TravState α) : discoverAll st [] = st := rfl

theorem discoverAll_cons (st : TravState α) (n : α) (ns : List α) :
    discoverAll st (n :: ns) = discoverAll (discover st n) ns := rfl

theorem discoverAll_expansions (ns : List α) :
    ∀ st : TravState α, (discoverAll st ns).expansions = st.expansions := by
  induction ns with
  | nil => intro st; rfl
  | cons n ns ih =>
    intro st
    rw [discoverAll_cons, ih]
    rfl

theorem discoverAll_discovered (ns : List α) :
    ∀ st : TravState α, (discoverAll st ns).discovered = st.discovered ∪ ns.toFinset := by
  induction ns with
  | nil => intro st; simp [discoverAll_nil]
  | cons n ns ih =>
    intro st
    rw [discoverAll_cons, ih]
    ext x
    simp only [discover, List.toFinset_cons, Finset.mem_union, Finset.mem_insert]
    tauto

theorem bfs_traverse_zero (adj : α → List α) (q : List α) (st : TravState α) :
    bfs_traverse adj 0 q st = st := rfl

theorem bfs_traverse_nilq (adj : α → List α) :
    ∀ (fuel : Nat) (st : TravState α), bfs_traverse adj fuel [] st = st := by
  intro fuel st
  cases fuel with
  | zero => rfl
  | succ fuel => rfl

theorem bfs_traverse_cons (adj : α → List α) (fuel : Nat) (b : α) (rest : List α)
    (st : TravState α) :
    bfs_traverse adj (fuel + 1) (b :: rest) st =
      if (nbrsOf adj (stepState st b) b).isEmpty then
        bfs_traverse adj fuel rest (stepState st b)
      else
        bfs_traverse adj fuel rest
          (bfs_traverse adj fuel (nbrsOf adj (stepState st b) b)
            (discoverAll (stepState st b) (nbrsOf adj (stepState st b) b))) := rfl

theorem stepState_discovered_of_mem (st : TravState α) (b : α) (hb : b ∈ st.discovered) :
    (stepState st b).discovered = st.discovered := by
  simp [stepState, Finset.insert_eq_self.mpr hb]

theorem stepState_expansions (st : TravState α) (b : α) :
    (stepState st b).expansions = st.expansions ++ [b] := rfl

theorem stepState_logInv (st : TravState α) (b : α) (h : LogInv st) :
    LogInv (stepState st b) := by
  obtain ⟨h1, h2⟩ := h
  by_cases hb : b ∈ st.discovered
  · refine ⟨?_, ?_⟩
    · show (if b ∈ st.discovered then st.discoveryLog else st.discoveryLog ++ [b]).Nodup
      rw [if_pos hb]
      exact h1
    · show ∀ n ∈ (if b ∈ st.discovered then st.discoveryLog else st.discoveryLog ++ [b]), _
      rw [if_pos hb]
      exact fun n hn => Finset.mem_insert_of_mem (h2 n hn)
  · refine ⟨?_, ?_⟩
    · show (if b ∈ st.discovered then st.discoveryLog else st.discoveryLog ++ [b]).Nodup
      rw [if_neg hb]
      rw [List.nodup_append]
      exact ⟨h1, List.nodup_singleton b, fun n hn hmem => by
        simp only [List.mem_singleton] at hmem
        exact hb (hmem ▸ h2 n hn)⟩
    · show ∀ n ∈ (if b ∈ st.discovered then st.discoveryLog else st.discoveryLog ++ [b]), _
      rw [if_neg hb]
      intro n hn
      rcases List.mem_append.mp hn with h | h
      · exact Finset.mem_insert_of_mem (h2 n h)
      · simp only [List.mem_singleton] at h
        rw [h]
        exact Finset.mem_insert_self b _

theorem discover_logInv (st : TravState α) (b : α) (h : LogInv st) : LogInv (discover st b) :=
  stepState_logInv st b h |>.imp (fun hx => hx) (fun hx => hx)

theorem discoverAll_logInv (ns : List α) :
    ∀ st : TravState α, LogInv st → LogInv (discoverAll st ns) := by
  induction ns with
  | nil => intro st h; exact h
  | cons n ns ih =>
    intro st h
    rw [discoverAll_cons]
    exact ih _ (discover_logInv st n h)

theorem bfs_logInv (adj : α → List α) :
    ∀ (fuel : Nat) (q : List α) (st : TravState α), LogInv st →
      LogInv (bfs_traverse adj fuel q st) := by
  intro fuel
  induction fuel with
  | zero => intro q st h; exact h
  | succ fuel ih =>
    intro q st h
    cases q with
    | nil => exact h
    | cons b rest =>
      rw [bfs_traverse_cons]
      by_cases hnb : (nbrsOf adj (stepState st b) b).isEmpty
      · rw [if_pos hnb]
        exact ih rest _ (stepState_logInv st b h)
      · rw [if_neg hnb]
        exact ih rest _ (ih _ _ (discoverAll_logInv _ _ (stepState_logInv st b h)))

theorem bfs_discovered_mono (adj : α → List α) :
    ∀ (fuel : Nat) (q : List α) (st : TravState α),
      st.discovered ⊆ (bfs_traverse adj fuel q st).discovered := by
  intro fuel
  induction fuel with
  | zero => intro q st; exact subset_rfl
  | succ fuel ih =>
    intro q st
    cases q with
    | nil => exact subset_rfl
    | cons b rest =>
      rw [bfs_traverse_cons]
      have hs1 : st.discovered ⊆ (stepState st b).discovered := fun x hx =>
        Finset.mem_insert_of_mem hx
      by_cases hnb : (nbrsOf adj (stepState st b) b).isEmpty
      · rw [if_pos hnb]
        exact hs1.trans (ih rest _)
      · rw [if_neg hnb]
        refine hs1.trans ?_
        have h2 : (stepState st b).discovered ⊆
            (discoverAll (stepState st b) (nbrsOf adj (stepState st b) b)).discovered := by
          rw [discoverAll_discovered]
          exact Finset.subset_union_left
        exact h2.trans ((ih _ _).trans (ih rest _))

theorem nbrsOf_fresh (adj : α → List α) (st1 : TravState α) (b : α) :
    ∀ n ∈ nbrsOf adj st1 b, n ∉ st1.discovered := by
  intro n hn
  rw [nbrsOf] at hn
  have h1 := List.mem_dedup.mp hn
  have h2 := List.mem_filter.mp h1
  exact of_decide_eq_true h2.2

theorem nbrsOf_mem_adj (adj : α → List α) (st1 : TravState α) (b : α) :
    ∀ n ∈ nbrsOf adj st1 b, n ∈ adj b := by
  intro n hn
  rw [nbrsOf] at hn
  exact (List.mem_filter.mp (List.mem_dedup.mp hn)).1

theorem bfs_expansions_inv (adj : α → List α) :
    ∀ (fuel : Nat) (q : List α) (st : TravState α),
      q.Nodup → (∀ n ∈ q, n ∈ st.discovered) → (∀ n ∈ q, n ∉ st.expansions) →
      st.expansions.Nodup → (∀ n ∈ st.expansions, n ∈ st.discovered) →
      (bfs_traverse adj fuel q st).expansions.Nodup ∧
      (∀ n ∈ (bfs_traverse adj fuel q st).expansions,
        n ∈ (bfs_traverse adj fuel q st).discovered) ∧
      (∀ n ∈ (bfs_traverse adj fuel q st).expansions,
        n ∈ st.expansions ∨ n ∈ q ∨ n ∉ st.discovered) := by
  intro fuel
  induction fuel with
  | zero =>
    intro q st _ _ _ h4 h5
    exact ⟨h4, h5, fun n hn => Or.inl hn⟩
  | succ fuel ih =>
    intro q st hnd hqd hqe hexn hexd
    cases q with
    | nil => exact ⟨hexn, hexd, fun n hn => Or.inl hn⟩
    | cons b rest =>
      have hb : b ∈ st.discovered := hqd b (by simp)
      have hbe : b ∉ st.expansions := hqe b (by simp)
      obtain ⟨hbq, hndr⟩ := List.nodup_cons.mp hnd
      have hs1disc : (stepState st b).discovered = st.discovered :=
        stepState_discovered_of_mem st b hb
      have hs1exps : (stepState st b).expansions = st.expansions ++ [b] := rfl
      have hexn1 : (stepState st b).expansions.Nodup := by
        rw [hs1exps, List.nodup_append]
        exact ⟨hexn, List.nodup_singleton b, fun n hn hmem => by
          simp only [List.mem_singleton] at hmem
          exact hbe (hmem ▸ hn)⟩
      have hexd1 : ∀ n ∈ (stepState st b).expansions, n ∈ (stepState st b).discovered := by
        rw [hs1exps, hs1disc]
        intro n hn
        rcases List.mem_append.mp hn with h | h
        · exact hexd n h
        · simp only [List.mem_singleton] at h
          exact h ▸ hb
      rw [bfs_traverse_cons]
      by_cases hnb : (nbrsOf adj (stepState st b) b).isEmpty
      · rw [if_pos hnb]
        have hr := ih rest (stepState st b) hndr
          (fun n hn => by rw [hs1disc]; exact hqd n (by simp [hn]))
          (fun n hn => by
            rw [hs1exps]
            intro hmem
            rcases List.mem_append.mp hmem with h | h
            · exact hqe n (by simp [hn]) h
            · simp only [List.mem_singleton] at h
              exact hbq (h ▸ hn))
          hexn1 hexd1
        refine ⟨hr.1, hr.2.1, ?_⟩
        intro n hn
        rcases hr.2.2 n hn with h | h | h
        · rw [hs1exps] at h
          rcases List.mem_append.mp h with h' | h'
          · exact Or.inl h'
          · simp only [List.mem_singleton] at h'
            exact Or.inr (Or.inl (by simp [h']))
        · exact Or.inr (Or.inl (by simp [h]))
        · rw [hs1disc] at h
          exact Or.inr (Or.inr h)
      · rw [if_neg hnb]
        have hfresh := nbrsOf_fresh adj (stepState st b) b
        have hs2disc : (discoverAll (stepState st b) (nbrsOf adj (stepState st b) b)).discovered =
            (stepState st b).discovered ∪ (nbrsOf adj (stepState st b) b).toFinset :=
          discoverAll_discovered _ _
        have hs2exps : (discoverAll (stepState st b) (nbrsOf adj (stepState st b) b)).expansions =
            (stepState st b).expansions :=
          discoverAll_expansions _ _
        have hin := ih (nbrsOf adj (stepState st b) b)
          (discoverAll (stepState st b) (nbrsOf adj (stepState st b) b))
          (List.nodup_dedup _)
          (fun n hn => by
            rw [hs2disc]
            exact Finset.mem_union_right _ (List.mem_toFinset.mpr hn))
          (fun n hn => by
            rw [hs2exps, hs1exps]
            intro hmem
            rcases List.mem_append.mp hmem with h | h
            · exact hfresh n hn (hs1disc ▸ hexd n h)
            · simp only [List.mem_singleton] at h
              exact hfresh n hn (h ▸ Finset.mem_insert_self b st.discovered))
          (by rw [hs2exps]; exact hexn1)
          (by
            rw [hs2exps]
            intro n hn
            rw [hs2disc]
            exact Finset.mem_union_left _ (hexd1 n hn))
        obtain ⟨h3nd, h3exd, h3esc⟩ := hin
        have h3mono : (discoverAll (stepState st b)
            (nbrsOf adj (stepState st b) b)).discovered ⊆
            (bfs_traverse adj fuel (nbrsOf adj (stepState st b) b)
              (discoverAll (stepState st b) (nbrsOf adj (stepState st b) b))).discovered :=
          bfs_discovered_mono adj fuel _ _
        have hstd3 : st.discovered ⊆ (bfs_traverse adj fuel (nbrsOf adj (stepState st b) b)
            (discoverAll (stepState st b) (nbrsOf adj (stepState st b) b))).discovered := by
          refine subset_trans ?_ h3mono
          rw [hs2disc, hs1disc]
          exact Finset.subset_union_left
        have hout := ih rest
          (bfs_traverse adj fuel (nbrsOf adj (stepState st b) b)
            (discoverAll (stepState st b) (nbrsOf adj (stepState st b) b)))
          hndr
          (fun n hn => hstd3 (hqd n (by simp [hn])))
          (fun n hn hmem => by
            rcases h3esc n hmem with h | h | h
            · rw [hs2exps, hs1exps] at h
              rcases List.mem_append.mp h with h' | h'
              · exact hqe n (by simp [hn]) h'
              · simp only [List.mem_singleton] at h'
                exact hbq (h' ▸ hn)
            · exact hfresh n h (hs1disc ▸ hqd n (by simp [hn]))
            · exact h (by
                rw [hs2disc, hs1disc]
                exact Finset.mem_union_left _ (hqd n (by simp [hn]))))
          h3nd h3exd
        obtain ⟨hfnd, hfexd, hfesc⟩ := hout
        refine ⟨hfnd, hfexd, ?_⟩
        intro n hn
        rcases hfesc n hn with h | h | h
        · rcases h3esc n h with h' | h' | h'
          · rw [hs2exps, hs1exps] at h'
            rcases List.mem_append.mp h' with h'' | h''
            · exact Or.inl h''
            · simp only [List.mem_singleton] at h''
              exact Or.inr (Or.inl (by simp [h'']))
          · exact Or.inr (Or.inr (fun hc => hfresh n h' (hs1disc ▸ hc)))
          · exact Or.inr (Or.inr (fun hc => h' (by
              rw [hs2disc, hs1disc]
              exact Finset.mem_union_left _ hc)))
        · exact Or.inr (Or.inl (by simp [h]))
        · exact Or.inr (Or.inr (fun hc => h (hstd3 hc)))

theorem bfs_stable (V : Finset α) (adj : α → List α) (hadj : ∀ a, ∀ n ∈ adj a, n ∈ V) :
    ∀ (fuel : Nat) (q : List α) (st : TravState α), travMeasure V st q < fuel →
      bfs_traverse adj fuel q st = bfs_traverse adj (fuel + 1) q st := by
  intro fuel
  induction fuel with
  | zero => intro q st h; exact absurd h (Nat.not_lt_zero _)
  | succ fuel ih =>
    intro q st h
    cases q with
    | nil => rw [bfs_traverse_nilq, bfs_traverse_nilq]
    | cons b rest =>
      rw [bfs_traverse_cons adj fuel b rest st, bfs_traverse_cons adj (fuel + 1) b rest st]
      have hs1sub : st.discovered ⊆ (stepState st b).discovered := fun x hx =>
        Finset.mem_insert_of_mem hx
      by_cases hnb : (nbrsOf adj (stepState st b) b).isEmpty
      · rw [if_pos hnb, if_pos hnb]
        apply ih rest (stepState st b)
        have hcard : (V \ (stepState st b).discovered).card ≤ (V \ st.discovered).card :=
          Finset.card_le_card (Finset.sdiff_subset_sdiff (Finset.Subset.refl V) hs1sub)
        have hmul := Nat.mul_le_mul_right (V.card + 1) hcard
        simp only [travMeasure, List.length_cons] at h ⊢
        omega
      · rw [if_neg hnb, if_neg hnb]
        have hfresh := nbrsOf_fresh adj (stepState st b) b
        have hsubV : ∀ n ∈ nbrsOf adj (stepState st b) b, n ∈ V := fun n hn =>
          hadj b n (nbrsOf_mem_adj adj (stepState st b) b n hn)
        have hnd : (nbrsOf adj (stepState st b) b).Nodup := List.nodup_dedup _
        have hs2disc : (discoverAll (stepState st b) (nbrsOf adj (stepState st b) b)).discovered =
            (stepState st b).discovered ∪ (nbrsOf adj (stepState st b) b).toFinset :=
          discoverAll_discovered _ _
        have hdisj : Disjoint
            (V \ (discoverAll (stepState st b) (nbrsOf adj (stepState st b) b)).discovered)
            (nbrsOf adj (stepState st b) b).toFinset := by
          rw [Finset.disjoint_left]
          intro x hx hxn
          rw [Finset.mem_sdiff] at hx
          exact hx.2 (by rw [hs2disc]; exact Finset.mem_union_right _ hxn)
        have huni : (V \ (discoverAll (stepState st b)
            (nbrsOf adj (stepState st b) b)).discovered) ∪
            (nbrsOf adj (stepState st b) b).toFinset ⊆ V \ st.discovered := by
          intro x hx
          rcases Finset.mem_union.mp hx with hx' | hx'
          · rw [Finset.mem_sdiff] at hx' ⊢
            refine ⟨hx'.1, fun hc => hx'.2 ?_⟩
            rw [hs2disc]
            exact Finset.mem_union_left _ (hs1sub hc)
          · rw [List.mem_toFinset] at hx'
            rw [Finset.mem_sdiff]
            exact ⟨hsubV x hx', fun hc => hfresh x hx' (hs1sub hc)⟩
        have hcard2 : (V \ (discoverAll (stepState st b)
            (nbrsOf adj (stepState st b) b)).discovered).card +
            (nbrsOf adj (stepState st b) b).length ≤ (V \ st.discovered).card := by
          rw [← List.toFinset_card_of_nodup hnd, ← Finset.card_union_of_disjoint hdisj]
          exact Finset.card_le_card huni
        have hkey : (V \ (discoverAll (stepState st b)
            (nbrsOf adj (stepState st b) b)).discovered).card * (V.card + 1) +
            (nbrsOf adj (stepState st b) b).length ≤
            (V \ st.discovered).card * (V.card + 1) := by
          calc (V \ (discoverAll (stepState st b)
              (nbrsOf adj (stepState st b) b)).discovered).card * (V.card + 1) +
              (nbrsOf adj (stepState st b) b).length
              ≤ (V \ (discoverAll (stepState st b)
                (nbrsOf adj (stepState st b) b)).discovered).card * (V.card + 1) +
                (nbrsOf adj (stepState st b) b).length * (V.card + 1) := by
                have := Nat.le_mul_of_pos_right (nbrsOf adj (stepState st b) b).length
                  (show 0 < V.card + 1 by omega)
                omega
            _ = ((V \ (discoverAll (stepState st b)
                (nbrsOf adj (stepState st b) b)).discovered).card +
                (nbrsOf adj (stepState st b) b).length) * (V.card + 1) := by
                rw [Nat.add_mul]
            _ ≤ (V \ st.discovered).card * (V.card + 1) :=
                Nat.mul_le_mul_right _ hcard2
        have hinner : bfs_traverse adj fuel (nbrsOf adj (stepState st b) b)
            (discoverAll (stepState st b) (nbrsOf adj (stepState st b) b)) =
            bfs_traverse adj (fuel + 1) (nbrsOf adj (stepState st b) b)
              (discoverAll (stepState st b) (nbrsOf adj (stepState st b) b)) := by
          apply ih
          simp only [travMeasure, List.length_cons] at h ⊢
          omega
        have hst3 : st.discovered ⊆ (bfs_traverse adj fuel (nbrsOf adj (stepState st b) b)
            (discoverAll (stepState st b) (nbrsOf adj (stepState st b) b))).discovered := by
          refine subset_trans ?_ (bfs_discovered_mono adj fuel _ _)
          rw [hs2disc]
          exact subset_trans hs1sub Finset.subset_union_left
        have hcard3 : (V \ (bfs_traverse adj fuel (nbrsOf adj (stepState st b) b)
            (discoverAll (stepState st b) (nbrsOf adj (stepState st b) b))).discovered).card ≤
            (V \ st.discovered).card :=
          Finset.card_le_card (Finset.sdiff_subset_sdiff (Finset.Subset.refl V) hst3)
        have houter : bfs_traverse adj fuel rest (bfs_traverse adj fuel
            (nbrsOf adj (stepState st b) b)
            (discoverAll (stepState st b) (nbrsOf adj (stepState st b) b))) =
            bfs_traverse adj (fuel + 1) rest (bfs_traverse adj fuel
              (nbrsOf adj (stepState st b) b)
              (discoverAll (stepState st b) (nbrsOf adj (stepState st b) b))) := by
          apply ih
          have hmul := Nat.mul_le_mul_right (V.card + 1) hcard3
          simp only [travMeasure, List.length_cons] at h ⊢
          omega
        rw [← hinner]
        exact houter

theorem bfs_stable_ge (V : Finset α) (adj : α → List α) (hadj : ∀ a, ∀ n ∈ adj a, n ∈ V)
    (q : List α) (st : TravState α) :
    ∀ f₁ f₂, travMeasure V st q < f₁ → f₁ ≤ f₂ →
      bfs_traverse adj f₁ q st = bfs_traverse adj f₂ q st := by
  intro f₁ f₂ h₁ hle
  induction f₂, hle using Nat.le_induction with
  | base => rfl
  | succ f₂ hle ih2 =>
    rw [ih2, bfs_stable V adj hadj f₂ q st (lt_of_lt_of_le h₁ hle)]

theorem bfs_expansions_nodup_root (adj : α → List α) (root : α) :
    ∀ fuel, (bfs_traverse adj fuel [root] ⟨∅, [], []⟩).expansions.Nodup := by
  intro fuel
  cases fuel with
  | zero => exact List.nodup_nil
  | succ fuel =>
    rw [bfs_traverse_cons]
    have hs1exps : (stepState (⟨∅, [], []⟩ : TravState α) root).expansions = [root] := rfl
    have hs1disc : (stepState (⟨∅, [], []⟩ : TravState α) root).discovered = {root} := by
      simp [stepState]
    by_cases hnb : (nbrsOf adj (stepState ⟨∅, [], []⟩ root) root).isEmpty
    · rw [if_pos hnb, bfs_traverse_nilq, hs1exps]
      exact List.nodup_singleton root
    · rw [if_neg hnb]
      have hfresh := nbrsOf_fresh adj (stepState (⟨∅, [], []⟩ : TravState α) root) root
      have hs2disc := discoverAll_discovered (nbrsOf adj (stepState ⟨∅, [], []⟩ root) root)
        (stepState (⟨∅, [], []⟩ : TravState α) root)
      have hs2exps := discoverAll_expansions (nbrsOf adj (stepState ⟨∅, [], []⟩ root) root)
        (stepState (⟨∅, [], []⟩ : TravState α) root)
      have hinner := bfs_expansions_inv adj fuel
        (nbrsOf adj (stepState ⟨∅, [], []⟩ root) root)
        (discoverAll (stepState ⟨∅, [], []⟩ root)
          (nbrsOf adj (stepState ⟨∅, [], []⟩ root) root))
        (List.nodup_dedup _)
        (fun n hn => by
          rw [hs2disc]
          exact Finset.mem_union_right _ (List.mem_toFinset.mpr hn))
        (fun n hn => by
          rw [hs2exps, hs1exps]
          intro hmem
          simp only [List.mem_singleton] at hmem
          exact hfresh n hn (by
            rw [hs1disc, hmem]
            exact Finset.mem_singleton_self root))
        (by rw [hs2exps, hs1exps]; exact List.nodup_singleton root)
        (fun n hn => by
          rw [hs2exps, hs1exps] at hn
          simp only [List.mem_singleton] at hn
          rw [hs2disc, hs1disc, hn]
          exact Finset.mem_union_left _ (Finset.mem_singleton_self root))
      rw [bfs_traverse_nilq]
      exact hinner.1

/-- C4: on any finite schema graph, possibly cyclic, the traversal
terminates (all sufficiently large fuel values agree), every node is added
to the discovered set at most once (the discovery log never repeats), and
every node is popped and expanded as a base node at most once (the
expansion log never repeats). -/
theorem c4_traversal_termination (V : Finset α) (adj : α → List α)
    (hadj : ∀ a, ∀ n ∈ adj a, n ∈ V) (root : α) :
    (∀ f₁ f₂, V.card * (V.card + 1) + 1 < f₁ → V.card * (V.card + 1) + 1 < f₂ →
      bfs_traverse adj f₁ [root] ⟨∅, [], []⟩ = bfs_traverse adj f₂ [root] ⟨∅, [], []⟩) ∧
    (∀ fuel, (bfs_traverse adj fuel [root] ⟨∅, [], []⟩).discoveryLog.Nodup) ∧
    (∀ fuel, (bfs_traverse adj fuel [root] ⟨∅, [], []⟩).expansions.Nodup) := by
  have hmu : travMeasure V (⟨∅, [], []⟩ : TravState α) [root] =
      V.card * (V.card + 1) + 1 := by
    rw [travMeasure]
    simp
  refine ⟨?_, ?_, ?_⟩
  · intro f₁ f₂ h₁ h₂
    rcases Nat.le_total f₁ f₂ with hle | hle
    · exact bfs_stable_ge V adj hadj [root] _ f₁ f₂ (by rw [hmu]; exact h₁) hle
    · exact (bfs_stable_ge V adj hadj [root] _ f₂ f₁ (by rw [hmu]; exact h₂) hle).symm
  · intro fuel
    exact (bfs_logInv adj fuel [root] _ ⟨List.nodup_nil, by simp⟩).1
  · exact bfs_expansions_nodup_root adj root

/-- C4 witness: a concrete cyclic three-node graph. -/
theorem c4_witness :
    (∀ a, ∀ n ∈ adjW a, n ∈ VW) ∧
    ((∀ f₁ f₂, VW.card * (VW.card + 1) + 1 < f₁ → VW.card * (VW.card + 1) + 1 < f₂ →
      bfs_traverse adjW f₁ [0] ⟨∅, [], []⟩ = bfs_traverse adjW f₂ [0] ⟨∅, [], []⟩) ∧
     (∀ fuel, (bfs_traverse adjW fuel [0] ⟨∅, [], []⟩).discoveryLog.Nodup) ∧
     (∀ fuel, (bfs_traverse adjW fuel [0] ⟨∅, [], []⟩).expansions.Nodup)) := by
  have hadjW : ∀ a, ∀ n ∈ adjW a, n ∈ VW := by
    intro a n hn
    by_cases h0 : a = 0
    · simp [adjW, h0] at hn
      simp [VW, hn]
    · by_cases h1 : a = 1
      · simp [adjW, h0, h1] at hn
        rcases hn with rfl | rfl <;> simp [VW]
      · by_cases h2 : a = 2
        · simp [adjW, h0, h1, h2] at hn
          simp [VW, hn]
        · simp [adjW, h0, h1, h2] at hn
  exact ⟨hadjW, c4_traversal_termination VW adjW hadjW 0⟩

end Autofeat
